import Mathlib

/-!
Verification of the `geoextract` extraction pipeline (shallow embedding).

The definitions below are translated from `src/geoextract/__init__.py`.
Python strings are modelled as `List Char`; `dict`s as insertion-ordered
association lists; generators as `List`-producing functions.  The regular
expressions that the code applies are hand-compiled to character-list
scanners that reproduce the leftmost, greedy-with-backtracking semantics
of `re.sub` for those specific patterns.  Character classes (`\s`, `\w`,
`\d`) are modelled at their ASCII meaning (the code runs them with
`re.UNICODE`; all inputs appearing in concrete theorems are ASCII, where
the two coincide).
-/

namespace GeoExtract

/-! ## Character classes and basic string primitives -/

/-- Python `\s` (ASCII part): space (32), tab (9), newline (10), vertical
tab (11), form feed (12), carriage return (13). -/
def pyIsSpace (c : Char) : Bool :=
  c.toNat = 32 || (9 ≤ c.toNat && c.toNat ≤ 13)

/-- Python `\d` (ASCII part). -/
def pyIsDigit (c : Char) : Bool :=
  48 ≤ c.toNat && c.toNat ≤ 57

/-- Python `\w` (ASCII part): letters, digits, underscore. -/
def pyIsWord (c : Char) : Bool :=
  (65 ≤ c.toNat && c.toNat ≤ 90) || (97 ≤ c.toNat && c.toNat ≤ 122) ||
    pyIsDigit c || c = '_'

/-- The class `[^\W\d_]`: word characters that are neither digits nor
underscore, i.e. letters. -/
def pyIsLetter (c : Char) : Bool :=
  pyIsWord c && !pyIsDigit c && c ≠ '_'

/-- The class `([^\w\s]|_)` used by the normalizer: punctuation/symbol
characters (not word, not whitespace), plus underscore. -/
def pyIsSpecial (c : Char) : Bool :=
  (!pyIsWord c && !pyIsSpace c) || c = '_'

/-- Python `str.lower` on a single character (ASCII part). -/
def lowerChar (c : Char) : Char :=
  if 65 ≤ c.toNat ∧ c.toNat ≤ 90 then Char.ofNat (c.toNat + 32) else c

/-- Python `str.lower` (ASCII part). -/
def pyLower (s : List Char) : List Char :=
  s.map lowerChar

/-- Drop leading whitespace. -/
def stripLeft (s : List Char) : List Char :=
  s.dropWhile pyIsSpace

/-- Python `str.strip`: drop leading and trailing whitespace. -/
def pyStrip (s : List Char) : List Char :=
  (stripLeft (stripLeft s.reverse).reverse)

/-- Kernel of `re.sub(r'\s+', ' ', s)`: the flag tells whether the
previous character was part of a whitespace run already replaced. -/
def collapseGo : Bool → List Char → List Char
  | _, [] => []
  | true, c :: rest =>
    if pyIsSpace c then collapseGo true rest
    else c :: collapseGo false rest
  | false, c :: rest =>
    if pyIsSpace c then ' ' :: collapseGo true rest
    else c :: collapseGo false rest

/-- `re.sub(r'\s+', ' ', s)`: replace every maximal whitespace run by a
single space. -/
def collapseWs (s : List Char) : List Char :=
  collapseGo false s

/-! ## Candidates and overlap pruning (`Pipeline._prune_overlapping`) -/

/-- An extraction candidate `(start, length, data)` as yielded by the
extractors.  `α` is the type of the `data` payload. -/
structure Cand (α : Type) where
  start : Nat
  len : Nat
  attrs : α
deriving DecidableEq, Repr

/-- End offset of a candidate's span. -/
def Cand.stop (c : Cand α) : Nat := c.start + c.len

/-- The comparison realising Python's
`sorted(results, key=lambda x: (x[0], -x[1]))`: increasing by start and
decreasing by length. -/
def candLE (a b : Cand α) : Bool :=
  a.start < b.start || (a.start = b.start && b.len ≤ a.len)

/-- Insert an element into a sorted list, after all elements that compare
`le` to it (this is what makes the sort below stable). -/
def insertSorted (le : α → α → Bool) (a : α) : List α → List α
  | [] => [a]
  | b :: bs => if le b a then b :: insertSorted le a bs else a :: b :: bs

/-- Stable sort, modelling Python's `sorted`.  Python uses a stable merge
sort; any two stable sorts w.r.t. the same total preorder agree
extensionally, so stable insertion sort is a faithful model. -/
def pySorted (le : α → α → Bool) (l : List α) : List α :=
  l.foldl (fun acc a => insertSorted le a acc) []

theorem mem_insertSorted (le : α → α → Bool) (a x : α) :
    ∀ l : List α, x ∈ insertSorted le a l ↔ x = a ∨ x ∈ l := by
  intro l
  induction l with
  | nil => simp [insertSorted]
  | cons b bs ih =>
    simp only [insertSorted]
    by_cases h : le b a
    · rw [if_pos h]
      simp only [List.mem_cons, ih]
      tauto
    · rw [if_neg h]
      simp only [List.mem_cons]

theorem pairwise_insertSorted (le : α → α → Bool)
    (htrans : ∀ a b c, le a b → le b c → le a c)
    (htotal : ∀ a b, le a b || le b a) (a : α) :
    ∀ l : List α, l.Pairwise (le · ·) →
      (insertSorted le a l).Pairwise (le · ·) := by
  intro l
  induction l with
  | nil => intro _; simp [insertSorted]
  | cons b bs ih =>
    intro hp
    rcases List.pairwise_cons.mp hp with ⟨hb, hbs⟩
    simp only [insertSorted]
    by_cases h : le b a
    · rw [if_pos h]
      refine List.Pairwise.cons ?_ (ih hbs)
      intro x hx
      rcases (mem_insertSorted le a x bs).mp hx with rfl | hx
      · exact h
      · exact hb x hx
    · rw [if_neg h]
      have hab : le a b := by
        rcases Bool.or_eq_true_iff.mp (htotal a b) with h' | h'
        · exact h'
        · exact absurd h' h
      refine List.Pairwise.cons ?_ hp
      intro x hx
      rcases List.mem_cons.mp hx with rfl | hx
      · exact hab
      · exact htrans a b x hab (hb x hx)

theorem pairwise_pySorted (le : α → α → Bool)
    (htrans : ∀ a b c, le a b → le b c → le a c)
    (htotal : ∀ a b, le a b || le b a) (l : List α) :
    (pySorted le l).Pairwise (le · ·) := by
  suffices h : ∀ acc : List α, acc.Pairwise (le · ·) →
      (l.foldl (fun acc a => insertSorted le a acc) acc).Pairwise (le · ·) by
    exact h [] (by simp)
  induction l with
  | nil => intro acc hacc; simpa using hacc
  | cons a as ih =>
    intro acc hacc
    exact ih _ (pairwise_insertSorted le htrans htotal a acc hacc)

/-- The greedy keep-loop of `Pipeline._prune_overlapping`: starting from
the last kept candidate, keep a candidate iff its end strictly exceeds
the end of the last kept one. -/
def pruneKeep : Cand α → List (Cand α) → List (Cand α)
  | _, [] => []
  | last, c :: cs =>
    if last.stop < c.stop then c :: pruneKeep c cs
    else pruneKeep last cs

/-- `Pipeline._prune_overlapping`: sort by `(start, -length)` (stably),
keep the first candidate, then run the greedy keep-loop. -/
def pruneOverlapping (results : List (Cand α)) : List (Cand α) :=
  match pySorted candLE results with
  | [] => []
  | c :: cs => c :: pruneKeep c cs

/-- Specification-side rendition of the pruning step, following the
wording of the spec: keep the first candidate of the sorted order, and
append each later candidate to the kept list iff its `start + length`
strictly exceeds that of the last kept candidate. -/
def pruneSpecStep (kept : List (Cand α)) (c : Cand α) : List (Cand α) :=
  match kept.getLast? with
  | none => [c]
  | some k => if k.stop < c.stop then kept ++ [c] else kept

/-- Overlap pruning as worded in the spec (a left fold growing the kept
list). -/
def pruneSpec (results : List (Cand α)) : List (Cand α) :=
  match pySorted candLE results with
  | [] => []
  | c :: cs => cs.foldl pruneSpecStep [c]

theorem pruneKeep_foldl (cs : List (Cand α)) :
    ∀ (pre : List (Cand α)) (last : Cand α), pre.getLast? = some last →
      cs.foldl pruneSpecStep pre = pre ++ pruneKeep last cs := by
  induction cs with
  | nil => intro pre last _; simp [pruneKeep]
  | cons c cs ih =>
    intro pre last hlast
    simp only [List.foldl_cons, pruneKeep, pruneSpecStep, hlast]
    by_cases h : last.stop < c.stop
    · rw [if_pos h, if_pos h, ih (pre ++ [c]) c (by simp), List.append_assoc]
      rfl
    · rw [if_neg h, if_neg h, ih pre last hlast]

/-- The two renditions of overlap pruning agree. -/
theorem pruneOverlapping_eq_pruneSpec (results : List (Cand α)) :
    pruneOverlapping results = pruneSpec results := by
  unfold pruneOverlapping pruneSpec
  cases pySorted candLE results with
  | nil => rfl
  | cons c cs =>
    show c :: pruneKeep c cs = cs.foldl pruneSpecStep [c]
    rw [pruneKeep_foldl cs [c] c (by simp)]
    rfl

theorem candLE_trans (a b c : Cand α) :
    candLE a b → candLE b c → candLE a c := by
  simp only [candLE, Bool.or_eq_true, Bool.and_eq_true, decide_eq_true_eq]
  omega

theorem candLE_total (a b : Cand α) : candLE a b || candLE b a := by
  simp only [candLE, Bool.or_eq_true, Bool.and_eq_true, decide_eq_true_eq]
  omega

theorem pruneKeep_sublist : ∀ (cs : List (Cand α)) (last : Cand α),
    List.Sublist (pruneKeep last cs) cs := by
  intro cs
  induction cs with
  | nil => intro last; simp [pruneKeep]
  | cons c cs ih =>
    intro last
    simp only [pruneKeep]
    by_cases h : last.stop < c.stop
    · rw [if_pos h]; exact (ih c).cons₂ c
    · rw [if_neg h]; exact (ih last).cons c

theorem pruneKeep_stop_lt : ∀ (cs : List (Cand α)) (last : Cand α),
    ∀ x ∈ pruneKeep last cs, last.stop < x.stop := by
  intro cs
  induction cs with
  | nil => intro last x hx; simp [pruneKeep] at hx
  | cons c cs ih =>
    intro last x hx
    simp only [pruneKeep] at hx
    by_cases h : last.stop < c.stop
    · rw [if_pos h] at hx
      rcases List.mem_cons.mp hx with rfl | hx
      · exact h
      · exact Nat.lt_trans h (ih c x hx)
    · rw [if_neg h] at hx
      exact ih last x hx

theorem pruneKeep_pairwise : ∀ (cs : List (Cand α)) (last : Cand α),
    (last :: pruneKeep last cs).Pairwise (fun a b => a.stop < b.stop) := by
  intro cs
  induction cs with
  | nil => intro last; simp [pruneKeep]
  | cons c cs ih =>
    intro last
    simp only [pruneKeep]
    by_cases h : last.stop < c.stop
    · rw [if_pos h]
      exact List.Pairwise.cons
        (fun x hx => by
          rcases List.mem_cons.mp hx with rfl | hx
          · exact h
          · exact Nat.lt_trans h (pruneKeep_stop_lt cs c x hx))
        (ih c)
    · rw [if_neg h]
      exact ih last

theorem pruneOverlapping_pairwise_stop (l : List (Cand α)) :
    (pruneOverlapping l).Pairwise (fun a b => a.stop < b.stop) := by
  unfold pruneOverlapping
  cases pySorted candLE l with
  | nil => simp
  | cons c cs => exact pruneKeep_pairwise cs c

theorem pruneOverlapping_sublist_sorted (l : List (Cand α)) :
    List.Sublist (pruneOverlapping l) (pySorted candLE l) := by
  unfold pruneOverlapping
  cases pySorted candLE l with
  | nil => simp
  | cons c cs => exact (pruneKeep_sublist cs c).cons₂ c

theorem countP_le_one_of_pairwise (p : β → Bool) (R : β → β → Prop)
    (h : ∀ a b, p a → p b → ¬ R a b) :
    ∀ l : List β, l.Pairwise R → l.countP p ≤ 1 := by
  intro l
  induction l with
  | nil => intro _; simp
  | cons a l ih =>
    intro hp
    rcases List.pairwise_cons.mp hp with ⟨ha, hl⟩
    by_cases hpa : p a
    · rw [List.countP_cons_of_pos _ _ hpa]
      have : l.countP p = 0 := by
        apply List.countP_eq_zero.mpr
        intro b hb hpb
        exact h a b hpa hpb (ha b hb)
      omega
    · rw [List.countP_cons_of_neg _ _ (by simpa using hpa)]
      exact ih hl

/-- C1: `Pipeline._prune_overlapping` sorts candidates by start ascending
and length descending, keeps the first candidate, and keeps each later
candidate iff its end (`start + length`) strictly exceeds the end of the
last kept candidate; on the spans `a=[0,1)`, `b=[1,3)`, `c=[2,3)`,
`d=[2,5)`, `e=[1,5)`, `f=[5,7)`, `g=[4,6)` it keeps exactly
`{a, e, f, g}` (in sorted order `a, e, g, f`). -/
theorem c1_prune_overlapping :
    (∀ (α : Type) (results : List (Cand α)),
      pruneOverlapping results = pruneSpec results) ∧
    pruneOverlapping
      [⟨0, 1, "a"⟩, ⟨1, 2, "b"⟩, ⟨2, 1, "c"⟩, ⟨2, 3, "d"⟩,
       ⟨1, 4, "e"⟩, ⟨5, 2, "f"⟩, ⟨4, 2, "g"⟩] =
      [⟨0, 1, "a"⟩, ⟨1, 4, "e"⟩, ⟨4, 2, "g"⟩, ⟨5, 2, "f"⟩] := by
  constructor
  · intro α results; exact pruneOverlapping_eq_pruneSpec results
  · decide

/-- C9: the output of `Pipeline._prune_overlapping` has strictly
increasing end offsets and non-decreasing starts, so any two candidates
with an identical `(start, length)` span leave at most one survivor. -/
theorem c9_prune_invariants (l : List (Cand α)) :
    (pruneOverlapping l).Chain' (fun a b => a.stop < b.stop) ∧
    (pruneOverlapping l).Chain' (fun a b => a.start ≤ b.start) ∧
    ∀ s n, (pruneOverlapping l).countP
      (fun c => c.start == s && c.len == n) ≤ 1 := by
  refine ⟨(pruneOverlapping_pairwise_stop l).chain', ?_, ?_⟩
  · have hsorted : (pySorted candLE l).Pairwise (candLE · ·) :=
      pairwise_pySorted candLE candLE_trans candLE_total l
    have hsub : (pruneOverlapping l).Pairwise (candLE · ·) :=
      hsorted.sublist (pruneOverlapping_sublist_sorted l)
    refine (hsub.imp ?_).chain'
    intro a b hab
    simp only [candLE, Bool.or_eq_true, Bool.and_eq_true,
      decide_eq_true_eq] at hab
    omega
  · intro s n
    apply countP_le_one_of_pairwise _ _ _ _
      (pruneOverlapping_pairwise_stop l)
    intro a b hpa hpb
    simp only [Bool.and_eq_true, beq_iff_eq] at hpa hpb
    simp [Cand.stop, hpa.1, hpa.2, hpb.1, hpb.2]

/-! ## Location deduplication (`_unique_locations`) -/

/-- `_UNIQUE_LOCATION_KEYS`: the keys used to distinguish locations. -/
def UNIQUE_LOCATION_KEYS : List String :=
  ["name", "street", "house_number", "postcode", "city"]

/-- The comparison key built for a location by `_unique_locations`:
`tuple((key, location.get(key, None)) for key in _UNIQUE_LOCATION_KEYS)`.
A location (Python dict) is modelled as an association list with values
of an arbitrary type `α`; a missing key yields `none`. -/
def locKey (location : List (String × α)) : List (String × Option α) :=
  UNIQUE_LOCATION_KEYS.map (fun k => (k, location.lookup k))

/-- The loop of `_unique_locations`, carrying the `unique_keys` set
(modelled as a list of already-seen keys). -/
def uniqueLocationsGo [DecidableEq α] :
    List (List (String × Option α)) → List (List (String × α)) →
      List (List (String × α))
  | _, [] => []
  | seen, location :: rest =>
    let key := locKey location
    if key ∈ seen then uniqueLocationsGo seen rest
    else location :: uniqueLocationsGo (key :: seen) rest

/-- `_unique_locations`: remove duplicates from a list of locations,
comparing them by their values for `_UNIQUE_LOCATION_KEYS`. -/
def uniqueLocations [DecidableEq α] (locations : List (List (String × α))) :
    List (List (String × α)) :=
  uniqueLocationsGo [] locations

/-- Specification-side rendition of deduplication: keep the head and
recursively deduplicate the tail with all locations sharing the head's
key-tuple removed — so exactly the first-encountered representative of
each distinct key-tuple survives, with its full attribute list. -/
def uniqueLocationsSpec [DecidableEq α] :
    List (List (String × α)) → List (List (String × α))
  | [] => []
  | location :: rest =>
    location :: uniqueLocationsSpec
      (rest.filter (fun l => !(locKey l == locKey location)))
termination_by l => l.length
decreasing_by
  simp only [List.length_cons]
  exact Nat.lt_succ_of_le (List.length_filter_le _ _)

theorem uniqueLocationsGo_eq [DecidableEq α] :
    ∀ (rest : List (List (String × α)))
      (seen : List (List (String × Option α))),
      uniqueLocationsGo seen rest =
        uniqueLocationsSpec (rest.filter (fun l => decide (locKey l ∉ seen))) := by
  intro rest
  induction rest with
  | nil => intro seen; simp [uniqueLocationsGo, uniqueLocationsSpec]
  | cons location rest ih =>
    intro seen
    simp only [uniqueLocationsGo, List.filter_cons]
    by_cases h : locKey location ∈ seen
    · rw [if_pos h, if_neg (by simpa using h), ih seen]
    · rw [if_neg h, if_pos (by simpa using h)]
      rw [uniqueLocationsSpec, ih (locKey location :: seen), List.filter_filter]
      refine congrArg (fun t => location :: t)
        (congrArg uniqueLocationsSpec (List.filter_congr ?_))
      intro l _
      by_cases h1 : locKey l = locKey location <;>
        by_cases h2 : locKey l ∈ seen <;> simp [h1, h2]

/-- C2: `_unique_locations` keeps exactly the first-encountered
representative (with its full attribute list) of each class of locations
agreeing on the keys `{name, street, house_number, postcode, city}`,
where a missing key counts as an explicit absent value (`none`), and two
locations are duplicates precisely when their lookups agree on those five
keys — attributes outside that set never affect equality. -/
theorem c2_unique_locations [DecidableEq α] :
    (∀ locations : List (List (String × α)),
      uniqueLocations locations = uniqueLocationsSpec locations) ∧
    (∀ l1 l2 : List (String × α),
      locKey l1 = locKey l2 ↔
        ∀ k ∈ UNIQUE_LOCATION_KEYS, l1.lookup k = l2.lookup k) := by
  constructor
  · intro locations
    rw [uniqueLocations, uniqueLocationsGo_eq locations []]
    congr 1
    apply List.filter_eq_self.mpr
    intro l _
    simp
  · intro l1 l2
    simp [locKey, UNIQUE_LOCATION_KEYS]

/-! ## `NameValidator.validate` -/

/-- The body of the `for key in 'street', 'city'` loop of
`NameValidator.validate` for one key: accept when the key is absent from
the candidate; otherwise look the value up in the registry and require
the found location's `type` attribute to equal the key. -/
def validateKeyLookup (locations : List (String × List (String × String)))
    (location : List (String × String)) (key : String) : Bool :=
  match location.lookup key with
  | none => true
  | some value =>
    match locations.lookup value with
    | none => false
    | some loc => loc.lookup "type" == some key

/-- `NameValidator.validate`: a location with a `name` key is accepted
unconditionally; otherwise each of `street` and `city` present in the
location must pass the registry lookup. -/
def nameValidate (locations : List (String × List (String × String)))
    (location : List (String × String)) : Bool :=
  if (location.lookup "name").isSome then true
  else validateKeyLookup locations location "street" &&
    validateKeyLookup locations location "city"

/-- Specification-side rendition of the default validation policy, as
worded in the spec: accept when `name` is present; otherwise every field
in `{street, city}` that is present must name a registry entry whose
`type` equals the field name. -/
def nameValidateSpec (locations : List (String × List (String × String)))
    (location : List (String × String)) : Bool :=
  if (location.lookup "name").isSome then true
  else
    ["street", "city"].all fun key =>
      match location.lookup key with
      | none => true
      | some value =>
        match locations.lookup value with
        | none => false
        | some loc => loc.lookup "type" == some key

/-- C7: `NameValidator.validate` accepts unconditionally when `name` is
present, and otherwise checks exactly the present fields among `street`
and `city` against the registry (absent value ⇒ reject; wrong `type`
⇒ reject; absent field ⇒ no constraint); in particular the empty
attribute map is accepted. -/
theorem c7_name_validator :
    (∀ locations location,
      nameValidate locations location = nameValidateSpec locations location) ∧
    (∀ locations, nameValidate locations [] = true) := by
  constructor
  · intro locations location
    simp [nameValidate, nameValidateSpec, validateKeyLookup]
  · intro locations
    simp [nameValidate, validateKeyLookup]

/-! ## `BasicNormalizer`

Each `re.sub` call of `BasicNormalizer.normalize` is hand-compiled to a
scanner over `List Char` which reproduces the engine's behaviour for
that pattern: leftmost match, greedy repetition with backtracking,
scanning resuming at the end of each replaced match. -/

/-- Match of `(\w-)\s*\n\s*` (pattern of the `rejoin_lines` step) at the
current position: a word character, a hyphen, then a whitespace run that
contains at least one newline (greediness makes the match swallow the
entire run).  Returns the number of characters consumed. -/
def matchRejoin (s : List Char) : Option Nat :=
  match s with
  | c :: '-' :: rest =>
    if pyIsWord c then
      let ws := rest.takeWhile pyIsSpace
      if '\n' ∈ ws then some (2 + ws.length) else none
    else none
  | _ => none

def subRejoinGo : Nat → List Char → List Char
  | 0, s => s
  | _ + 1, [] => []
  | fuel + 1, c :: rest =>
    match matchRejoin (c :: rest) with
    | some consumed => c :: '-' :: subRejoinGo fuel ((c :: rest).drop consumed)
    | none => c :: subRejoinGo fuel rest

/-- `re.sub(r'(\w-)\s*\n\s*', r'\1', s)`: rejoin lines split by a
hyphen. -/
def subRejoin (s : List Char) : List Char :=
  subRejoinGo (s.length + 1) s

/-- Match of `([^\W\d_])-+(?=[^\W\d_])` (pattern of the
`remove_hyphens` step): a letter, a maximal hyphen run, and a letter
right after it (the lookahead is not consumed). -/
def matchHyphen (s : List Char) : Option Nat :=
  match s with
  | c :: rest =>
    if pyIsLetter c then
      let hy := rest.takeWhile (fun d => d = '-')
      if hy ≠ [] then
        match (rest.drop hy.length).head? with
        | some d => if pyIsLetter d then some (1 + hy.length) else none
        | none => none
      else none
    else none
  | [] => none

def subHyphensGo : Nat → List Char → List Char
  | 0, s => s
  | _ + 1, [] => []
  | fuel + 1, c :: rest =>
    match matchHyphen (c :: rest) with
    | some consumed => c :: subHyphensGo fuel ((c :: rest).drop consumed)
    | none => c :: subHyphensGo fuel rest

/-- `re.sub(r'([^\W\d_])-+(?=[^\W\d_])', r'\1', s)`: remove hyphens
between letters. -/
def subHyphens (s : List Char) : List Char :=
  subHyphensGo (s.length + 1) s

/-- Greedy-with-backtracking tail of the `(…)([^\w\s]|_)+(?=\D|$)`
patterns: given the characters following the (possibly empty) first
group, take the maximal run of specials; if the character after the run
is a digit, backtrack by one (the new lookahead character is a special,
hence a non-digit), which needs the run to have length at least two.
Returns how many characters of the run are consumed. -/
def specialsRunTake (rest : List Char) : Option Nat :=
  let run := rest.takeWhile pyIsSpecial
  if run = [] then none
  else
    match (rest.drop run.length).head? with
    | none => some run.length
    | some d =>
      if !pyIsDigit d then some run.length
      else if run.length ≥ 2 then some (run.length - 1)
      else none

/-- Match of `(\D|^)([^\w\s]|_)+(?=\D|$)` at the current position.  The
`\D` alternative is tried first; the `^` alternative only applies at the
start of the string.  Returns `(consumed, replacement)`; the replacement
is group 1 followed by a space. -/
def matchSpecialsA (atStart : Bool) (s : List Char) : Option (Nat × List Char) :=
  let viaD : Option (Nat × List Char) :=
    match s with
    | c :: rest =>
      if !pyIsDigit c then
        match specialsRunTake rest with
        | some k => some (1 + k, [c, ' '])
        | none => none
      else none
    | [] => none
  match viaD with
  | some r => some r
  | none =>
    if atStart then
      match specialsRunTake s with
      | some k => some (k, [' '])
      | none => none
    else none

def subSpecialsAGo : Nat → Bool → List Char → List Char
  | 0, _, s => s
  | _ + 1, _, [] => []
  | fuel + 1, atStart, c :: rest =>
    match matchSpecialsA atStart (c :: rest) with
    | some (consumed, repl) =>
      repl ++ subSpecialsAGo fuel false ((c :: rest).drop consumed)
    | none => c :: subSpecialsAGo fuel false rest

/-- `re.sub(r'(\D|^)([^\w\s]|_)+(?=\D|$)', r'\1 ', s)`. -/
def subSpecialsA (s : List Char) : List Char :=
  subSpecialsAGo (s.length + 1) true s

/-- Match of `(\w)([^\w\s]|_)+\s+` at the current position: a word
character, a maximal special run, a maximal whitespace run (the
character classes are disjoint, so greediness needs no backtracking). -/
def matchSpecialsB (s : List Char) : Option Nat :=
  match s with
  | c :: rest =>
    if pyIsWord c then
      let run := rest.takeWhile pyIsSpecial
      if run = [] then none
      else
        let sp := (rest.drop run.length).takeWhile pyIsSpace
        if sp = [] then none else some (1 + run.length + sp.length)
    else none
  | [] => none

def subSpecialsBGo : Nat → List Char → List Char
  | 0, s => s
  | _ + 1, [] => []
  | fuel + 1, c :: rest =>
    match matchSpecialsB (c :: rest) with
    | some consumed => c :: ' ' :: subSpecialsBGo fuel ((c :: rest).drop consumed)
    | none => c :: subSpecialsBGo fuel rest

/-- `re.sub(r'(\w)([^\w\s]|_)+\s+', r'\1 ', s)`. -/
def subSpecialsB (s : List Char) : List Char :=
  subSpecialsBGo (s.length + 1) s

/-- Match of `\s+([^\w\s]|_)+(?=\w)` at the current position: a maximal
whitespace run, a maximal special run, and a word character after it.
Group 1 captures only the last repetition, i.e. the last special of the
run, so the replacement `\1 ` is that last special followed by a space.
Returns `(consumed, last special of the run)`. -/
def matchSpecialsC (s : List Char) : Option (Nat × Char) :=
  let sp := s.takeWhile pyIsSpace
  if sp = [] then none
  else
    let run := (s.drop sp.length).takeWhile pyIsSpecial
    if run = [] then none
    else
      match (s.drop (sp.length + run.length)).head? with
      | some d =>
        if pyIsWord d then some (sp.length + run.length, run.getLastD ' ')
        else none
      | none => none

def subSpecialsCGo : Nat → List Char → List Char
  | 0, s => s
  | _ + 1, [] => []
  | fuel + 1, c :: rest =>
    match matchSpecialsC (c :: rest) with
    | some (consumed, lastSpecial) =>
      lastSpecial :: ' ' :: subSpecialsCGo fuel ((c :: rest).drop consumed)
    | none => c :: subSpecialsCGo fuel rest

/-- `re.sub(r'\s+([^\w\s]|_)+(?=\w)', r'\1 ', s)`. -/
def subSpecialsC (s : List Char) : List Char :=
  subSpecialsCGo (s.length + 1) s

/-- One step of `re.sub(r'([^\W\d_]|-)+', stemmer.stem, s)`: letters and
hyphens form the stemmed runs. -/
def isStemChar (c : Char) : Bool :=
  pyIsLetter c || c = '-'

def stemRunsGo (st : List Char → List Char) : Nat → List Char → List Char
  | 0, s => s
  | _ + 1, [] => []
  | fuel + 1, c :: rest =>
    if isStemChar c then
      st (c :: rest.takeWhile isStemChar) ++
        stemRunsGo st fuel (rest.dropWhile isStemChar)
    else c :: stemRunsGo st fuel rest

/-- `re.sub(r'([^\W\d_]|-)+', lambda m: stemmer.stem(m.group()), s)`:
apply the (pluggable) stemmer to each maximal run of letters/hyphens. -/
def stemRuns (st : List Char → List Char) (s : List Char) : List Char :=
  stemRunsGo st (s.length + 1) s

/-- The configuration of a `BasicNormalizer`.  `unidecode` is the
external transliteration function (a pluggable collaborator; identity on
ASCII); `subs` models the caller-supplied `re.sub` substitution pairs as
opaque string transforms; `stem` is the pluggable Snowball stemmer. -/
structure BasicNormalizer where
  to_ascii : Bool
  rejoin_lines : Bool
  remove_hyphens : Bool
  remove_specials : Bool
  subs : List (List Char → List Char)
  stem : Option (List Char → List Char)
  unidecode : List Char → List Char

/-- `BasicNormalizer.normalize`, step for step from the source. -/
def BasicNormalizer.normalize (n : BasicNormalizer) (s : List Char) :
    List Char :=
  let s1 := pyLower (pyStrip s)
  let s2 := if n.to_ascii then n.unidecode s1 else s1
  let s3 := if n.rejoin_lines then subRejoin s2 else s2
  let s4 := if n.remove_hyphens then subHyphens s3 else s3
  let s5 := if n.remove_specials then subSpecialsC (subSpecialsB (subSpecialsA s4))
    else s4
  let s6 := n.subs.foldl (fun t f => f t) s5
  let s7 := match n.stem with
    | some st => stemRuns st s6
    | none => s6
  pyStrip (collapseWs s7)

/-- The default construction `BasicNormalizer()` (no substitutions, no
stemmer), with the transliteration function a parameter. -/
def defaultBasicNormalizer (unidec : List Char → List Char) :
    BasicNormalizer :=
  ⟨true, true, true, true, [], none, unidec⟩

/- The `TestBasicNormalizer` vectors of `tests/test_geoextract.py`,
machine-checked against the embedding (`id` stands for `unidecode`,
which is the identity on these ASCII inputs). -/
example : (defaultBasicNormalizer id).normalize "foo-\nbar".data = "foobar".data := by decide
example : (defaultBasicNormalizer id).normalize "foo- \nbar".data = "foobar".data := by decide
example : (defaultBasicNormalizer id).normalize "foo -\nbar".data = "foo bar".data := by decide
example : (defaultBasicNormalizer id).normalize "foo\n-bar".data = "foo bar".data := by decide
example : (defaultBasicNormalizer id).normalize "foo\nbar".data = "foo bar".data := by decide
example : (defaultBasicNormalizer id).normalize "1-\n2".data = "1-2".data := by decide
example : (defaultBasicNormalizer id).normalize "foo-bar".data = "foobar".data := by decide
example : (defaultBasicNormalizer id).normalize "f-o-o-b-a-r".data = "foobar".data := by decide
example : (defaultBasicNormalizer id).normalize "1-2".data = "1-2".data := by decide
example : (defaultBasicNormalizer id).normalize "1-2-3".data = "1-2-3".data := by decide
example : (defaultBasicNormalizer id).normalize "2000-3000".data = "2000-3000".data := by decide
example : (defaultBasicNormalizer id).normalize "hello?".data = "hello".data := by decide
example : (defaultBasicNormalizer id).normalize "!hello".data = "hello".data := by decide
example : (defaultBasicNormalizer id).normalize "foo!?#bar".data = "foo bar".data := by decide
example : (defaultBasicNormalizer id).normalize "#f!$o?/o+".data = "f o o".data := by decide
example : (defaultBasicNormalizer id).normalize "2.3".data = "2.3".data := by decide
example : (defaultBasicNormalizer id).normalize "-2.3".data = "-2.3".data := by decide
example : (defaultBasicNormalizer id).normalize "-2.3e-34".data = "-2.3e-34".data := by decide
example : (defaultBasicNormalizer id).normalize "1234-".data = "1234-".data := by decide
example : (defaultBasicNormalizer id).normalize "1+2".data = "1+2".data := by decide
example : (defaultBasicNormalizer id).normalize "+134".data = "+134".data := by decide
example : (defaultBasicNormalizer id).normalize " \n \r \t a \n \r \t b \n \r \t ".data = "a b".data := by decide
example :
    { defaultBasicNormalizer id with remove_hyphens := false }.normalize
      "f-o-o-b-a-r".data = "f o o b a r".data := by decide
example :
    { defaultBasicNormalizer id with rejoin_lines := false }.normalize
      "foo- \nbar".data = "foo bar".data := by decide

/-! ### Idempotence analysis of `normalize` -/

theorem toNat_ofNat_small (n : Nat) (h : n < 55296) :
    (Char.ofNat n).toNat = n := by
  have hv : n.isValidChar := Or.inl h
  rw [Char.ofNat, dif_pos hv]
  simp [Char.ofNatAux, Char.toNat, UInt32.toNat, UInt32.ofNatCore]

theorem lowerChar_toNat (c : Char) (h : 65 ≤ c.toNat ∧ c.toNat ≤ 90) :
    (lowerChar c).toNat = c.toNat + 32 := by
  rw [lowerChar, if_pos h, toNat_ofNat_small _ (by omega)]

theorem lowerChar_idem (c : Char) : lowerChar (lowerChar c) = lowerChar c := by
  by_cases h : 65 ≤ c.toNat ∧ c.toNat ≤ 90
  · have ht := lowerChar_toNat c h
    have h2 : ¬(65 ≤ (lowerChar c).toNat ∧ (lowerChar c).toNat ≤ 90) := by
      omega
    show (if 65 ≤ (lowerChar c).toNat ∧ (lowerChar c).toNat ≤ 90 then
        Char.ofNat ((lowerChar c).toNat + 32) else lowerChar c) = lowerChar c
    rw [if_neg h2]
  · have he : lowerChar c = c := by rw [lowerChar, if_neg h]
    rw [he, he]

theorem pyIsSpace_lowerChar (c : Char) :
    pyIsSpace (lowerChar c) = pyIsSpace c := by
  by_cases h : 65 ≤ c.toNat ∧ c.toNat ≤ 90
  · have ht := lowerChar_toNat c h
    have h1 : pyIsSpace c = false := by
      simp only [pyIsSpace, Bool.or_eq_false_iff, decide_eq_false_iff_not,
        Bool.and_eq_false_iff]
      omega
    have h2 : pyIsSpace (lowerChar c) = false := by
      simp only [pyIsSpace, ht, Bool.or_eq_false_iff, decide_eq_false_iff_not,
        Bool.and_eq_false_iff]
      omega
    rw [h1, h2]
  · rw [lowerChar, if_neg h]

theorem mem_collapseGo :
    ∀ (s : List Char) (b : Bool) (c : Char), c ∈ collapseGo b s →
      c = ' ' ∨ c ∈ s := by
  intro s
  induction s with
  | nil => intro b c h; cases b <;> simp [collapseGo] at h
  | cons d rest ih =>
    intro b c h
    by_cases hd : pyIsSpace d
    · cases b with
      | true =>
        rw [collapseGo, if_pos hd] at h
        rcases ih true c h with h' | h'
        · exact Or.inl h'
        · exact Or.inr (List.mem_cons_of_mem d h')
      | false =>
        rw [collapseGo, if_pos hd] at h
        rcases List.mem_cons.mp h with rfl | h'
        · exact Or.inl rfl
        · rcases ih true c h' with h'' | h''
          · exact Or.inl h''
          · exact Or.inr (List.mem_cons_of_mem d h'')
    · have step : c ∈ d :: collapseGo false rest → c = ' ' ∨ c ∈ d :: rest := by
        intro h'
        rcases List.mem_cons.mp h' with rfl | h''
        · exact Or.inr (List.mem_cons_self c rest)
        · rcases ih false c h'' with h3 | h3
          · exact Or.inl h3
          · exact Or.inr (List.mem_cons_of_mem d h3)
      cases b with
      | true => rw [collapseGo, if_neg hd] at h; exact step h
      | false => rw [collapseGo, if_neg hd] at h; exact step h

theorem mem_pyStrip (s : List Char) (c : Char) (h : c ∈ pyStrip s) :
    c ∈ s := by
  have h1 : c ∈ (stripLeft s.reverse).reverse :=
    (List.dropWhile_sublist _).subset h
  have h2 : c ∈ stripLeft s.reverse := List.mem_reverse.mp h1
  have h3 : c ∈ s.reverse := (List.dropWhile_sublist _).subset h2
  exact List.mem_reverse.mp h3

/-- The binary relation "not two whitespace characters in a row". -/
def noWsPair (a b : Char) : Prop :=
  ¬(pyIsSpace a = true ∧ pyIsSpace b = true)

theorem collapseGo_head_true :
    ∀ (s : List Char) (c : Char), (collapseGo true s).head? = some c →
      pyIsSpace c = false := by
  intro s
  induction s with
  | nil => intro c h; simp [collapseGo] at h
  | cons d rest ih =>
    intro c h
    by_cases hd : pyIsSpace d
    · rw [collapseGo, if_pos hd] at h
      exact ih c h
    · rw [collapseGo, if_neg hd] at h
      simp only [List.head?_cons, Option.some.injEq] at h
      subst h
      simpa using hd

theorem chain'_collapseGo :
    ∀ (s : List Char) (b : Bool), (collapseGo b s).Chain' noWsPair := by
  intro s
  induction s with
  | nil => intro b; cases b <;> simp [collapseGo]
  | cons d rest ih =>
    intro b
    by_cases hd : pyIsSpace d
    · cases b with
      | true => rw [collapseGo, if_pos hd]; exact ih true
      | false =>
        rw [collapseGo, if_pos hd, List.chain'_cons']
        refine ⟨?_, ih true⟩
        intro y hy
        have := collapseGo_head_true rest y hy
        simp [noWsPair, this]
    · have step : (d :: collapseGo false rest).Chain' noWsPair := by
        rw [List.chain'_cons']
        refine ⟨?_, ih false⟩
        intro y _
        simp [noWsPair, hd]
      cases b with
      | true => rw [collapseGo, if_neg hd]; exact step
      | false => rw [collapseGo, if_neg hd]; exact step

theorem wsSpace_collapseGo :
    ∀ (s : List Char) (b : Bool) (c : Char), c ∈ collapseGo b s →
      pyIsSpace c → c = ' ' := by
  intro s
  induction s with
  | nil => intro b c h; cases b <;> simp [collapseGo] at h
  | cons d rest ih =>
    intro b c h hws
    by_cases hd : pyIsSpace d
    · cases b with
      | true =>
        rw [collapseGo, if_pos hd] at h
        exact ih true c h hws
      | false =>
        rw [collapseGo, if_pos hd] at h
        rcases List.mem_cons.mp h with rfl | h'
        · rfl
        · exact ih true c h' hws
    · have step : c ∈ d :: collapseGo false rest → c = ' ' := by
        intro h'
        rcases List.mem_cons.mp h' with rfl | h''
        · exact absurd hws (by simpa using hd)
        · exact ih false c h'' hws
      cases b with
      | true => rw [collapseGo, if_neg hd] at h; exact step h
      | false => rw [collapseGo, if_neg hd] at h; exact step h

theorem collapseGo_eq_self :
    ∀ s : List Char, s.Chain' noWsPair →
      (∀ c ∈ s, pyIsSpace c → c = ' ') →
      collapseGo false s = s ∧
        ((∀ d, s.head? = some d → pyIsSpace d = false) →
          collapseGo true s = s) := by
  intro s
  induction s with
  | nil => intro _ _; exact ⟨rfl, fun _ => rfl⟩
  | cons c rest ih =>
    intro hchain hmem
    rcases List.chain'_cons'.mp hchain with ⟨hhd, htail⟩
    have ihr := ih htail (fun x hx => hmem x (List.mem_cons_of_mem c hx))
    by_cases hc : pyIsSpace c
    · have hceq : c = ' ' := hmem c (List.mem_cons_self c rest) hc
      have hresthd : ∀ d, rest.head? = some d → pyIsSpace d = false := by
        intro d hd
        have := hhd d hd
        simp only [noWsPair, not_and] at this
        simpa using this hc
      constructor
      · rw [collapseGo, if_pos hc, ihr.2 hresthd, hceq]
      · intro hh
        have := hh c (by simp)
        rw [this] at hc
        simp at hc
    · constructor
      · rw [collapseGo, if_neg hc, ihr.1]
      · intro _
        rw [collapseGo, if_neg hc, ihr.1]

theorem head?_dropWhile (p : Char → Bool) :
    ∀ (l : List Char) (d : Char), (l.dropWhile p).head? = some d →
      p d = false := by
  intro l
  induction l with
  | nil => intro d h; simp at h
  | cons c rest ih =>
    intro d h
    by_cases hc : p c
    · rw [List.dropWhile_cons_of_pos hc] at h
      exact ih d h
    · rw [List.dropWhile_cons_of_neg hc] at h
      simp only [List.head?_cons, Option.some.injEq] at h
      subst h
      simpa using hc

theorem dropWhile_eq_self_of_head (p : Char → Bool) (l : List Char)
    (h : ∀ d, l.head? = some d → p d = false) : l.dropWhile p = l := by
  cases l with
  | nil => rfl
  | cons c rest =>
    rw [List.dropWhile_cons_of_neg]
    simp [h c rfl]

theorem pyStrip_head (s : List Char) (d : Char)
    (h : (pyStrip s).head? = some d) : pyIsSpace d = false :=
  head?_dropWhile pyIsSpace _ d h

theorem pyStrip_getLast (s : List Char) (d : Char)
    (h : (pyStrip s).getLast? = some d) : pyIsSpace d = false := by
  have h' : (List.dropWhile pyIsSpace
      ((stripLeft s.reverse).reverse)).getLast? = some d := h
  have hne : List.dropWhile pyIsSpace ((stripLeft s.reverse).reverse) ≠ [] := by
    intro hnil
    rw [hnil] at h'
    simp at h'
  obtain ⟨pre, hpre⟩ :
      (List.dropWhile pyIsSpace
        ((stripLeft s.reverse).reverse)).IsSuffix
        ((stripLeft s.reverse).reverse) :=
    List.dropWhile_suffix pyIsSpace
  have hy : ((stripLeft s.reverse).reverse).getLast? = some d := by
    rw [← hpre, List.getLast?_append_of_ne_nil pre hne]
    exact h'
  rw [List.getLast?_reverse] at hy
  exact head?_dropWhile pyIsSpace _ d hy

theorem pyStrip_idem (s : List Char) : pyStrip (pyStrip s) = pyStrip s := by
  have h1 : stripLeft (pyStrip s).reverse = (pyStrip s).reverse := by
    apply dropWhile_eq_self_of_head
    intro d hd
    rw [List.head?_reverse] at hd
    exact pyStrip_getLast s d hd
  show stripLeft ((stripLeft (pyStrip s).reverse).reverse) = pyStrip s
  rw [h1, List.reverse_reverse]
  apply dropWhile_eq_self_of_head
  intro d hd
  exact pyStrip_head s d hd

theorem pyLower_eq_self :
    ∀ s : List Char, (∀ c ∈ s, lowerChar c = c) → pyLower s = s := by
  intro s
  induction s with
  | nil => intro _; rfl
  | cons c rest ih =>
    intro h
    show lowerChar c :: List.map lowerChar rest = c :: rest
    rw [h c (List.mem_cons_self c rest)]
    have := ih (fun x hx => h x (List.mem_cons_of_mem c hx))
    exact congrArg (c :: ·) this

theorem chain'_pyStrip (s : List Char) (h : s.Chain' noWsPair) :
    (pyStrip s).Chain' noWsPair := by
  have hsym : ∀ l : List Char, l.Chain' noWsPair →
      l.reverse.Chain' noWsPair := by
    intro l hl
    rw [List.chain'_reverse]
    refine hl.imp ?_
    intro a b hab
    simp only [flip, noWsPair] at hab ⊢
    tauto
  have h1 := hsym s h
  have h2 : (stripLeft s.reverse).Chain' noWsPair :=
    h1.suffix (List.dropWhile_suffix _)
  have h3 := hsym _ h2
  exact h3.suffix (List.dropWhile_suffix _)

/-- The all-steps-disabled normalizer configuration: `normalize` is then
exactly trim + lowercase + whitespace collapse + trim. -/
def trivialNormalizer : BasicNormalizer :=
  ⟨false, false, false, false, [], none, id⟩

theorem trivialNormalizer_normalize (s : List Char) :
    trivialNormalizer.normalize s =
      pyStrip (collapseWs (pyLower (pyStrip s))) := rfl

theorem trivialNormalizer_idem (s : List Char) :
    trivialNormalizer.normalize (trivialNormalizer.normalize s) =
      trivialNormalizer.normalize s := by
  rw [trivialNormalizer_normalize s,
    trivialNormalizer_normalize (pyStrip (collapseWs (pyLower (pyStrip s))))]
  have h1 : pyStrip (pyStrip (collapseWs (pyLower (pyStrip s)))) =
      pyStrip (collapseWs (pyLower (pyStrip s))) :=
    pyStrip_idem (collapseWs (pyLower (pyStrip s)))
  rw [h1]
  have hlow : pyLower (pyStrip (collapseWs (pyLower (pyStrip s)))) =
      pyStrip (collapseWs (pyLower (pyStrip s))) := by
    apply pyLower_eq_self
    intro c hc
    have hc1 := mem_pyStrip _ c hc
    rcases mem_collapseGo _ false c hc1 with rfl | hc2
    · decide
    · obtain ⟨d, _, rfl⟩ := List.mem_map.mp hc2
      exact lowerChar_idem d
  rw [hlow]
  have hcol : collapseWs (pyStrip (collapseWs (pyLower (pyStrip s)))) =
      pyStrip (collapseWs (pyLower (pyStrip s))) := by
    have hc1 : (pyStrip (collapseWs (pyLower (pyStrip s)))).Chain' noWsPair :=
      chain'_pyStrip _ (chain'_collapseGo _ false)
    have hc2 : ∀ c ∈ pyStrip (collapseWs (pyLower (pyStrip s))),
        pyIsSpace c → c = ' ' := fun c hc hw =>
      wsSpace_collapseGo _ false c (mem_pyStrip _ c hc) hw
    exact (collapseGo_eq_self _ hc1 hc2).1
  rw [hcol]
  exact pyStrip_idem (collapseWs (pyLower (pyStrip s)))

/-- C3 counterexample: with the default configuration (transliteration
is the identity on this ASCII input, no stemmer), `normalize` is not
idempotent: `normalize "a !1" = "a! 1"` (the `\s+([^\w\s]|_)+(?=\w)`
pass moves the digit-adjacent `!` in front of the space), and a second
application of `normalize` turns that into `"a 1"`. -/
theorem c3_counterexample :
    ¬ ((defaultBasicNormalizer id).normalize
        ((defaultBasicNormalizer id).normalize "a !1".data) =
      (defaultBasicNormalizer id).normalize "a !1".data) := by
  decide

/-- C3 (amended): `BasicNormalizer.normalize` is not idempotent for every
configuration (see the counterexample, which uses the default
configuration); it is idempotent for the configuration with `to_ascii`,
`rejoin_lines`, `remove_hyphens` and `remove_specials` all disabled and
no substitutions or stemmer, where it is exactly
trim + lowercase + whitespace collapse.  In addition, on the
counterexample input the composed map reaches a fixed point at the
second application. -/
theorem c3_amended :
    (∀ s : List Char,
      trivialNormalizer.normalize (trivialNormalizer.normalize s) =
        trivialNormalizer.normalize s) ∧
    (defaultBasicNormalizer id).normalize "a !1".data = "a! 1".data ∧
    (defaultBasicNormalizer id).normalize "a! 1".data = "a 1".data := by
  refine ⟨trivialNormalizer_idem, by decide, by decide⟩

/-- C5 counterexample: the maximal special run `!!` of `"!!a"` is not
adjacent to any digit, so by the claim it should be replaced by a single
space, normalizing to `"a"`; the code instead consumes the first `!` as
the `(\D|^)` group and yields `"! a"`. -/
theorem c5_counterexample :
    (defaultBasicNormalizer id).normalize "!!a".data = "! a".data ∧
    (defaultBasicNormalizer id).normalize "!!a".data ≠ "a".data := by
  constructor
  · decide
  · decide

/-- C5 (amended): with `remove_specials` enabled, the quoted behaviours
hold (`-2.3e-34` and `+134` are preserved, `foo!?#bar ↦ foo bar`), but
the general rule does not: a maximal special run is replaced by a single
space together with one preceding non-digit character (or from the
string start); when the run is longer and the replacement consumes a
special as that preceding character, part of the run survives
(`!!a ↦ ! a`); a digit-adjacent run between a word character and
whitespace is removed entirely (`1! a ↦ 1 a`), and a digit-adjacent run
after whitespace is moved in front of the space (`a !1 ↦ a! 1`). -/
theorem c5_amended :
    (defaultBasicNormalizer id).normalize "-2.3e-34".data = "-2.3e-34".data ∧
    (defaultBasicNormalizer id).normalize "+134".data = "+134".data ∧
    (defaultBasicNormalizer id).normalize "foo!?#bar".data = "foo bar".data ∧
    (defaultBasicNormalizer id).normalize "!!a".data = "! a".data ∧
    (defaultBasicNormalizer id).normalize "1! a".data = "1 a".data ∧
    (defaultBasicNormalizer id).normalize "a !1".data = "a! 1".data := by
  refine ⟨by decide, by decide, by decide, by decide, by decide, by decide⟩

/-! ## `NameExtractor`

The Aho-Corasick automaton is modelled by its observable behaviour: the
set of pairs `(end, word)` such that the padded word occurs in the padded
text ending at `end`.  After the index arithmetic of
`NameExtractor.extract` this becomes: the pairs `(start, word)` such that
`' ' + word + ' '` occurs in `' ' + text + ' '` starting at padded index
`start`, which equals the character offset of `word` in `text`.  The
real automaton reports matches by increasing end position; the claims
below are insensitive to the order, which the model fixes as position
first and registration order second. -/

/-- `NameExtractor._pad`: one space on each side. -/
def pad (text : List Char) : List Char :=
  ' ' :: (text ++ [' '])

/-- The automaton contents built by `NameExtractor.setup`: each name is
stripped before insertion, and `add_word` keys the automaton by the
padded word, so duplicated stripped names collapse into one entry. -/
def nameExtractorWords (names : List (List Char)) : List (List Char) :=
  (names.map pyStrip).dedup

/-- All matches `(start, word)` of the padded automaton words in the
padded text, as yielded by `NameExtractor.extract`. -/
def nameExtractMatches (names : List (List Char)) (text : List Char) :
    List (Nat × List Char) :=
  (List.range (pad text).length).flatMap fun i =>
    (nameExtractorWords names).filterMap fun n =>
      if (pad n).isPrefixOf ((pad text).drop i) then some (i, n) else none

/-- `NameExtractor.extract`: yields `(start, len(name), {'name': name})`
for every automaton match. -/
def nameExtract (names : List (List Char)) (text : List Char) :
    List (Cand (List (String × String))) :=
  (nameExtractMatches names text).map fun m =>
    ⟨m.1, m.2.length, [("name", String.mk m.2)]⟩

/- The `TestNameExtractor` vectors of `tests/test_geoextract.py` (names
`['foo', 'foobar', 'a space', 'öüä']`), machine-checked. -/
example :
    nameExtract ["foo".data, "foobar".data, "a space".data, "öüä".data]
      "foo x".data = [⟨0, 3, [("name", "foo")]⟩] := by decide
example :
    nameExtract ["foo".data, "foobar".data, "a space".data, "öüä".data]
      "x foobar".data = [⟨2, 6, [("name", "foobar")]⟩] := by decide
example :
    nameExtract ["foo".data, "foobar".data, "a space".data, "öüä".data]
      "x a space y".data = [⟨2, 7, [("name", "a space")]⟩] := by decide
example :
    nameExtract ["foo".data, "foobar".data, "a space".data, "öüä".data]
      "öüä".data = [⟨0, 3, [("name", "öüä")]⟩] := by decide
example :
    nameExtract ["foo".data, "foobar".data, "a space".data, "öüä".data]
      "xfoo xfooy foox".data = [] := by decide

/-- C4 counterexample: for the registered name `n = "a"` and the text
`"a" + " " + n + " " + "b"` (i.e. `x = "a"`, `y = "b"`, both non-space
words), the extractor yields two matches with attributes
`{name: "a"}` — the word `x` itself also matches — not exactly one as
the claim requires. -/
theorem c4_counterexample :
    nameExtract ["a".data] "a a b".data =
      [⟨0, 1, [("name", "a")]⟩, ⟨2, 1, [("name", "a")]⟩] ∧
    (nameExtract ["a".data] "a a b".data).length ≠ 1 := by
  constructor
  · decide
  · decide

/-! ### The word-boundary property of `NameExtractor` -/

theorem getElemOfPrefix {p l : List Char} (h : p <+: l) (k : Nat)
    (hk : k < p.length) : l[k]? = p[k]? := by
  obtain ⟨t, rfl⟩ := h
  rw [List.getElem?_append, if_pos hk]

theorem mem_of_headOpt {α : Type} {l : List α} {d : α} (h : l.head? = some d) :
    d ∈ l := by
  cases l with
  | nil => simp at h
  | cons c cs =>
    simp only [List.head?_cons, Option.some.injEq] at h
    subst h
    exact List.mem_cons_self c cs

theorem pyStrip_eq_self {s : List Char}
    (h : ∀ c ∈ s, pyIsSpace c = false) : pyStrip s = s := by
  have h1 : stripLeft s.reverse = s.reverse := by
    apply dropWhile_eq_self_of_head
    intro d hd
    exact h d (List.mem_reverse.mp (mem_of_headOpt hd))
  show stripLeft ((stripLeft s.reverse).reverse) = s
  rw [h1, List.reverse_reverse]
  apply dropWhile_eq_self_of_head
  intro d hd
  exact h d (mem_of_headOpt hd)

/-- The padded form of a text `x + ' ' + n + ' ' + y`. -/
def padded3 (x n y : List Char) : List Char :=
  pad (x ++ ' ' :: (n ++ ' ' :: y))

theorem padded3_eq (x n y : List Char) :
    padded3 x n y =
      ' ' :: (x ++ (' ' :: (n ++ (' ' :: (y ++ [' '])))))  := by
  simp [padded3, pad]

theorem padded3_length (x n y : List Char) :
    (padded3 x n y).length =
      x.length + n.length + y.length + 4 := by
  simp [padded3, pad]
  omega

theorem padded3_getElem_x (x n y : List Char) (k : Nat) (hk : k < x.length) :
    (padded3 x n y)[k + 1]? = x[k]? := by
  rw [padded3_eq, List.getElem?_cons_succ, List.getElem?_append, if_pos hk]

theorem padded3_getElem_sp1 (x n y : List Char) :
    (padded3 x n y)[x.length + 1]? = some ' ' := by
  rw [padded3_eq, List.getElem?_cons_succ, List.getElem?_append,
    if_neg (by omega), Nat.sub_self, List.getElem?_cons_zero]

theorem padded3_getElem_n (x n y : List Char) (k : Nat) (hk : k < n.length) :
    (padded3 x n y)[x.length + 2 + k]? = n[k]? := by
  have h1 : x.length + 2 + k = (x.length + 1 + k) + 1 := by omega
  rw [padded3_eq, h1, List.getElem?_cons_succ, List.getElem?_append,
    if_neg (by omega)]
  have h2 : x.length + 1 + k - x.length = k + 1 := by omega
  rw [h2, List.getElem?_cons_succ, List.getElem?_append, if_pos hk]

theorem padded3_getElem_sp2 (x n y : List Char) :
    (padded3 x n y)[x.length + n.length + 2]? = some ' ' := by
  have h1 : x.length + n.length + 2 = (x.length + n.length + 1) + 1 := by omega
  rw [padded3_eq, h1, List.getElem?_cons_succ, List.getElem?_append,
    if_neg (by omega)]
  have h2 : x.length + n.length + 1 - x.length = n.length + 1 := by omega
  rw [h2, List.getElem?_cons_succ, List.getElem?_append,
    if_neg (by omega), Nat.sub_self, List.getElem?_cons_zero]

theorem padded3_getElem_y (x n y : List Char) (k : Nat) (hk : k < y.length) :
    (padded3 x n y)[x.length + n.length + 3 + k]? = y[k]? := by
  have h1 : x.length + n.length + 3 + k = (x.length + n.length + 2 + k) + 1 := by
    omega
  rw [padded3_eq, h1, List.getElem?_cons_succ, List.getElem?_append,
    if_neg (by omega)]
  have h2 : x.length + n.length + 2 + k - x.length = n.length + 1 + k + 1 := by
    omega
  rw [h2, List.getElem?_cons_succ, List.getElem?_append, if_neg (by omega)]
  have h3 : n.length + 1 + k - n.length = k + 1 := by omega
  rw [h3, List.getElem?_cons_succ, List.getElem?_append, if_pos hk]

/-- Whitespace occurs in the padded text only at the four delimiter
positions, provided `x`, `n`, `y` are whitespace-free. -/
theorem padded3_space (x n y : List Char)
    (hxw : ∀ c ∈ x, pyIsSpace c = false)
    (hnw : ∀ c ∈ n, pyIsSpace c = false)
    (hyw : ∀ c ∈ y, pyIsSpace c = false)
    (j : Nat) (c : Char) (hj : (padded3 x n y)[j]? = some c)
    (hc : pyIsSpace c = true) :
    j = 0 ∨ j = x.length + 1 ∨ j = x.length + n.length + 2 ∨
      j = x.length + n.length + y.length + 3 := by
  by_contra hcon
  push_neg at hcon
  obtain ⟨h0, h1, h2, h3⟩ := hcon
  have hjlen : j < x.length + n.length + y.length + 4 := by
    by_contra hge
    rw [List.getElem?_eq_none (by rw [padded3_length]; omega)] at hj
    simp at hj
  have hcases : (1 ≤ j ∧ j ≤ x.length) ∨
      (x.length + 2 ≤ j ∧ j ≤ x.length + n.length + 1) ∨
      (x.length + n.length + 3 ≤ j ∧
        j ≤ x.length + n.length + y.length + 2) := by
    omega
  rcases hcases with ⟨ha, hb⟩ | ⟨ha, hb⟩ | ⟨ha, hb⟩
  · obtain ⟨k, hk, rfl⟩ : ∃ k, k < x.length ∧ j = k + 1 :=
      ⟨j - 1, by omega, by omega⟩
    rw [padded3_getElem_x x n y k hk] at hj
    rw [hxw c (List.getElem?_mem hj)] at hc
    simp at hc
  · obtain ⟨k, hk, rfl⟩ : ∃ k, k < n.length ∧ j = x.length + 2 + k :=
      ⟨j - x.length - 2, by omega, by omega⟩
    rw [padded3_getElem_n x n y k hk] at hj
    rw [hnw c (List.getElem?_mem hj)] at hc
    simp at hc
  · obtain ⟨k, hk, rfl⟩ : ∃ k, k < y.length ∧
        j = x.length + n.length + 3 + k :=
      ⟨j - x.length - n.length - 3, by omega, by omega⟩
    rw [padded3_getElem_y x n y k hk] at hj
    rw [hyw c (List.getElem?_mem hj)] at hc
    simp at hc

theorem pad_getElem_zero (n : List Char) : (pad n)[0]? = some ' ' := by
  rw [pad, List.getElem?_cons_zero]

theorem pad_getElem_mid (n : List Char) (k : Nat) (hk : k < n.length) :
    (pad n)[k + 1]? = n[k]? := by
  rw [pad, List.getElem?_cons_succ, List.getElem?_append, if_pos hk]

theorem pad_getElem_last (n : List Char) :
    (pad n)[n.length + 1]? = some ' ' := by
  rw [pad, List.getElem?_cons_succ, List.getElem?_append,
    if_neg (by omega), Nat.sub_self, List.getElem?_cons_zero]

theorem pad_length (n : List Char) : (pad n).length = n.length + 2 := by
  simp [pad]

/-- In the padded text for `x + ' ' + n + ' ' + y`, the padded word
`' ' + n + ' '` occurs exactly at start position `x.length + 1`,
provided `x`, `n`, `y` are nonempty, whitespace-free, and `x ≠ n`,
`y ≠ n`. -/
theorem padded3_occurrence (x n y : List Char)
    (hx : x ≠ []) (hy : y ≠ [])
    (hxw : ∀ c ∈ x, pyIsSpace c = false)
    (hnw : ∀ c ∈ n, pyIsSpace c = false)
    (hyw : ∀ c ∈ y, pyIsSpace c = false)
    (hxn : x ≠ n) (hyn : y ≠ n) (i : Nat) :
    (pad n) <+: ((padded3 x n y).drop i) ↔ i = x.length + 1 := by
  have hX : 1 ≤ x.length := by
    cases x with
    | nil => exact absurd rfl hx
    | cons a l => simp
  have hY : 1 ≤ y.length := by
    cases y with
    | nil => exact absurd rfl hy
    | cons a l => simp
  constructor
  · intro hpre
    have hfirst : (padded3 x n y)[i]? = some ' ' := by
      have h := getElemOfPrefix hpre 0 (by rw [pad_length]; omega)
      rw [List.getElem?_drop, Nat.add_zero, pad_getElem_zero] at h
      exact h
    have hlast : (padded3 x n y)[i + (n.length + 1)]? = some ' ' := by
      have h := getElemOfPrefix hpre (n.length + 1) (by rw [pad_length]; omega)
      rw [List.getElem?_drop, pad_getElem_last] at h
      exact h
    have hmid : ∀ k, k < n.length → (padded3 x n y)[i + 1 + k]? = n[k]? := by
      intro k hk
      have h := getElemOfPrefix hpre (k + 1) (by rw [pad_length]; omega)
      rw [List.getElem?_drop, pad_getElem_mid n k hk] at h
      have he : i + (k + 1) = i + 1 + k := by omega
      rw [he] at h
      exact h
    have hSi := padded3_space x n y hxw hnw hyw i ' ' hfirst (by decide)
    have hSe := padded3_space x n y hxw hnw hyw (i + (n.length + 1)) ' '
      hlast (by decide)
    rcases hSi with rfl | h | h | h
    · exfalso
      rcases hSe with h0 | h1 | h2 | h3
      · omega
      · -- n.length = x.length, so the middle segment equals x, forcing x = n
        have hNX : n.length = x.length := by omega
        apply hxn
        apply List.ext_getElem?
        intro k
        by_cases hk : k < x.length
        · have e1 := padded3_getElem_x x n y k hk
          have e2 := hmid k (by omega)
          have he : 0 + 1 + k = k + 1 := by omega
          rw [he] at e2
          rw [e1] at e2
          exact e2
        · rw [List.getElem?_eq_none (by omega),
            List.getElem?_eq_none (by omega)]
      · omega
      · omega
    · exact h
    · exfalso
      -- i = x.length + n.length + 2: only the last delimiter can close the
      -- match, forcing n.length = y.length and then y = n
      subst h
      rcases hSe with h0 | h1 | h2 | h3
      · omega
      · omega
      · omega
      · have hNY : n.length = y.length := by omega
        apply hyn
        apply List.ext_getElem?
        intro k
        by_cases hk : k < y.length
        · have e1 := padded3_getElem_y x n y k hk
          have e2 := hmid k (by omega)
          have he : x.length + n.length + 2 + 1 + k =
              x.length + n.length + 3 + k := by omega
          rw [he] at e2
          rw [e1] at e2
          exact e2
        · rw [List.getElem?_eq_none (by omega),
            List.getElem?_eq_none (by omega)]
    · exfalso
      subst h
      have hnone : (padded3 x n y)[x.length + n.length + y.length + 3 +
          (n.length + 1)]? = none :=
        List.getElem?_eq_none (by rw [padded3_length]; omega)
      rw [hnone] at hlast
      simp at hlast
  · rintro rfl
    have hdrop : (padded3 x n y).drop (x.length + 1) =
        ' ' :: (n ++ (' ' :: (y ++ [' ']))) := by
      rw [padded3_eq]
      have h1 : x.length + 1 = 1 + x.length := by omega
      rw [h1, ← List.drop_drop, List.drop_one]
      show (x ++ (' ' :: (n ++ (' ' :: (y ++ [' ']))))).drop x.length =
        ' ' :: (n ++ (' ' :: (y ++ [' '])))
      exact List.drop_left x _
    rw [hdrop]
    refine ⟨y ++ [' '], ?_⟩
    simp [pad]

/-- Whitespace occurs in the padding of a whitespace-free text only at
the two padding positions. -/
theorem pad_space (t : List Char) (htw : ∀ c ∈ t, pyIsSpace c = false)
    (j : Nat) (c : Char) (hj : (pad t)[j]? = some c)
    (hc : pyIsSpace c = true) : j = 0 ∨ j = t.length + 1 := by
  by_contra hcon
  push_neg at hcon
  obtain ⟨h0, h1⟩ := hcon
  have hjlen : j < t.length + 2 := by
    by_contra hge
    rw [List.getElem?_eq_none (by rw [pad_length]; omega)] at hj
    simp at hj
  obtain ⟨k, hk, rfl⟩ : ∃ k, k < t.length ∧ j = k + 1 :=
    ⟨j - 1, by omega, by omega⟩
  rw [pad_getElem_mid t k hk] at hj
  rw [htw c (List.getElem?_mem hj)] at hc
  simp at hc

/-- A padded word strictly shorter than a whitespace-free text never
occurs with its surrounding spaces inside the padded text. -/
theorem pad_no_occurrence (t n : List Char)
    (htw : ∀ c ∈ t, pyIsSpace c = false) (hlt : n.length < t.length)
    (i : Nat) : ¬ ((pad n) <+: ((pad t).drop i)) := by
  intro hpre
  have hfirst : (pad t)[i]? = some ' ' := by
    have h := getElemOfPrefix hpre 0 (by rw [pad_length]; omega)
    rw [List.getElem?_drop, Nat.add_zero, pad_getElem_zero] at h
    exact h
  have hlast : (pad t)[i + (n.length + 1)]? = some ' ' := by
    have h := getElemOfPrefix hpre (n.length + 1) (by rw [pad_length]; omega)
    rw [List.getElem?_drop, pad_getElem_last] at h
    exact h
  have hSi := pad_space t htw i ' ' hfirst (by decide)
  have hSe := pad_space t htw (i + (n.length + 1)) ' ' hlast (by decide)
  omega

theorem flatMap_range_eq_nil {β : Type} (m : Nat) (f : Nat → List β)
    (hf : ∀ i, i < m → f i = []) : (List.range m).flatMap f = [] := by
  induction m with
  | zero => simp
  | succ m ih =>
    rw [List.range_succ, List.flatMap_append,
      ih (fun i hi => hf i (by omega))]
    simp [hf m (by omega)]

theorem flatMap_range_eq_single {β : Type} (m j : Nat) (f : Nat → List β)
    (a : β) (hj : j < m) (hf : ∀ i, f i = if i = j then [a] else []) :
    (List.range m).flatMap f = [a] := by
  induction m with
  | zero => omega
  | succ m ih =>
    rw [List.range_succ, List.flatMap_append]
    by_cases hm : j = m
    · rw [flatMap_range_eq_nil _ f (fun i hi => by
        rw [hf i, if_neg (by omega)])]
      simp [hf m, hm]
    · rw [ih (by omega)]
      have hfm : f m = [] := by rw [hf m, if_neg (by omega)]
      simp [hfm]

/-- C4 (amended): for a `NameExtractor` whose registered names include
`n` (here: exactly `n`), with `n` a nonempty space-free word, and any
non-space words `x`, `y` that both differ from `n`, the text
`x + ' ' + n + ' ' + y` yields exactly one candidate — attributes
`{name: n}` at the exact span of `n` — and the text `x + n + y` without
surrounding spaces yields no candidate.  (The original claim fails
without `x ≠ n`, `y ≠ n` and without `n` being space-free: see the
counterexample.) -/
theorem c4_amended (n x y : List Char)
    (hn : n ≠ []) (hx : x ≠ []) (hy : y ≠ [])
    (hnw : ∀ c ∈ n, pyIsSpace c = false)
    (hxw : ∀ c ∈ x, pyIsSpace c = false)
    (hyw : ∀ c ∈ y, pyIsSpace c = false)
    (hxn : x ≠ n) (hyn : y ≠ n) :
    nameExtract [n] (x ++ ' ' :: (n ++ ' ' :: y)) =
      [⟨x.length + 1, n.length, [("name", String.mk n)]⟩] ∧
    nameExtract [n] (x ++ (n ++ y)) = [] := by
  have hN : 1 ≤ n.length := by
    cases n with
    | nil => exact absurd rfl hn
    | cons a l => simp
  have hX : 1 ≤ x.length := by
    cases x with
    | nil => exact absurd rfl hx
    | cons a l => simp
  have hY : 1 ≤ y.length := by
    cases y with
    | nil => exact absurd rfl hy
    | cons a l => simp
  have hwords : nameExtractorWords [n] = [n] := by
    simp [nameExtractorWords, pyStrip_eq_self hnw]
  constructor
  · show (nameExtractMatches [n] (x ++ ' ' :: (n ++ ' ' :: y))).map _ = _
    have hmatches : nameExtractMatches [n] (x ++ ' ' :: (n ++ ' ' :: y)) =
        [(x.length + 1, n)] := by
      unfold nameExtractMatches
      rw [hwords]
      apply flatMap_range_eq_single _ (x.length + 1) _ (x.length + 1, n)
      · rw [show pad (x ++ ' ' :: (n ++ ' ' :: y)) = padded3 x n y from rfl,
          padded3_length]
        omega
      · intro i
        simp only [List.filterMap_cons, List.filterMap_nil]
        rw [show pad (x ++ ' ' :: (n ++ ' ' :: y)) = padded3 x n y from rfl]
        by_cases hocc : (pad n) <+: ((padded3 x n y).drop i)
        · have hi : i = x.length + 1 :=
            (padded3_occurrence x n y hx hy hxw hnw hyw hxn hyn i).mp hocc
          subst hi
          rw [if_pos ((List.isPrefixOf_iff_prefix).mpr hocc), if_pos rfl]
        · have hi : i ≠ x.length + 1 := by
            intro he
            exact hocc ((padded3_occurrence x n y hx hy hxw hnw
              hyw hxn hyn i).mpr he)
          rw [if_neg (by
            rw [List.isPrefixOf_iff_prefix]
            exact hocc), if_neg hi]
    rw [hmatches]
    simp
  · show (nameExtractMatches [n] (x ++ (n ++ y))).map _ = _
    have hmatches : nameExtractMatches [n] (x ++ (n ++ y)) = [] := by
      unfold nameExtractMatches
      rw [hwords]
      apply flatMap_range_eq_nil
      intro i _
      simp only [List.filterMap_cons, List.filterMap_nil]
      rw [if_neg]
      rw [List.isPrefixOf_iff_prefix]
      apply pad_no_occurrence
      · intro c hc
        rcases List.mem_append.mp hc with h | h
        · exact hxw c h
        · rcases List.mem_append.mp h with h' | h'
          · exact hnw c h'
          · exact hyw c h'
      · rw [List.length_append, List.length_append]
        omega
    rw [hmatches]
    rfl

/-- Witness for the amended C4 theorem at `n = "ab"`, `x = "x"`,
`y = "y"`. -/
theorem c4_amended_witness :
    nameExtract ["ab".data] ("x".data ++ ' ' :: ("ab".data ++ ' ' :: "y".data)) =
      [⟨2, 2, [("name", "ab")]⟩] ∧
    nameExtract ["ab".data] ("x".data ++ ("ab".data ++ "y".data)) = [] := by
  have h := c4_amended "ab".data "x".data "y".data (by decide) (by decide)
    (by decide) (by decide) (by decide) (by decide) (by decide) (by decide)
  exact ⟨h.1, h.2⟩

/-! ## `_split`, `_windowed` and `WindowExtractor` -/

/-- The scanner realising `_split`: tokens are the maximal whitespace-free
runs, each paired with its character offset (the fuel only serves
structural recursion; every step consumes at least one character, so
`length + 1` fuel is always enough). -/
def splitGo : Nat → Nat → List Char → List (Nat × List Char)
  | 0, _, _ => []
  | _ + 1, _, [] => []
  | fuel + 1, pos, c :: rest =>
    if pyIsSpace c then splitGo fuel (pos + 1) rest
    else
      (pos, c :: rest.takeWhile (fun d => !pyIsSpace d)) ::
        splitGo fuel (pos + 1 + (rest.takeWhile (fun d => !pyIsSpace d)).length)
          (rest.dropWhile (fun d => !pyIsSpace d))

/-- `_split(s)`: like `str.split`, but returning `(pos, part)` pairs. -/
def pySplit (s : List Char) : List (Nat × List Char) :=
  splitGo (s.length + 1) 0 s

/-- `_windowed(seq, n)`: sliding windows of `n` consecutive elements.
For `n = 0` (possible in `WindowExtractor.extract` when
`start_len = 0`), the Python generator first yields one empty tuple
(`islice(it, 0)` consumes nothing and `len(()) == 0`), and then the
slide loop `result = result[1:] + (elem,)` turns every further element
into a singleton window. -/
def windowedPy {α : Type} (words : List α) (n : Nat) : List (List α) :=
  if n = 0 then [] :: words.map (fun w => [w])
  else (List.range (words.length + 1 - n)).map fun i => (words.drop i).take n

/-- `' '.join(w[1] for w in window)`. -/
def joinWindow : List (Nat × List Char) → List Char
  | [] => []
  | [w] => w.2
  | w :: ws => w.2 ++ ' ' :: joinWindow ws

/-- The loop of `WindowExtractor.extract` over the flattened list of
windows.  `wext` models the subclass hook `_window_extract`.  A window
that is an empty tuple (only produced for window length 0) makes Python
evaluate `window[0][0]` for each match, raising `IndexError`: the
candidates yielded before that point stand, the rest of the generator is
lost; this is modelled by the `Bool` component (`true` = the generator
raised). -/
def wExtractGo (wext : List Char → List (List (String × String))) :
    List (List (Nat × List Char)) →
      List (Cand (List (String × String))) × Bool
  | [] => ([], false)
  | window :: rest =>
    match window with
    | [] =>
      if wext (joinWindow []) = [] then wExtractGo wext rest
      else ([], true)
    | w :: ws =>
      let s := joinWindow (w :: ws)
      let here := (wext s).map fun m => Cand.mk w.1 s.length m
      let res := wExtractGo wext rest
      (here ++ res.1, res.2)

/-- `WindowExtractor.extract`: for every window length in
`range(start_len, stop_len + 1)` slide a window over the tokens of
`_split(text)`, rejoin each window with single spaces and report every
match of the subclass hook at the window's first token offset with the
rejoined string's length. -/
def wExtract (wext : List Char → List (List (String × String)))
    (start_len stop_len : Nat) (text : List Char) :
    List (Cand (List (String × String))) × Bool :=
  wExtractGo wext
    ((List.range' start_len (stop_len + 1 - start_len)).flatMap
      fun L => windowedPy (pySplit text) L)

/- The `TestWindowExtractor` vectors of `tests/test_geoextract.py`,
using the dummy subclass that reports each window as `{'name': window}`. -/
example :
    wExtract (fun s => [[("name", String.mk s)]]) 2 3 "a b c d".data =
      ([⟨0, 3, [("name", "a b")]⟩, ⟨2, 3, [("name", "b c")]⟩,
        ⟨4, 3, [("name", "c d")]⟩, ⟨0, 5, [("name", "a b c")]⟩,
        ⟨2, 5, [("name", "b c d")]⟩], false) := by decide
example :
    wExtract (fun s => [[("name", String.mk s)]]) 2 3 "  a b c".data =
      ([⟨2, 3, [("name", "a b")]⟩, ⟨4, 3, [("name", "b c")]⟩,
        ⟨2, 5, [("name", "a b c")]⟩], false) := by decide
example :
    wExtract (fun s => [[("name", String.mk s)]]) 2 3 "a b c  ".data =
      ([⟨0, 3, [("name", "a b")]⟩, ⟨2, 3, [("name", "b c")]⟩,
        ⟨0, 5, [("name", "a b c")]⟩], false) := by decide
example :
    wExtract (fun s => [[("name", String.mk s)]]) 2 3 "a  b\tc\nd".data =
      ([⟨0, 3, [("name", "a b")]⟩, ⟨3, 3, [("name", "b c")]⟩,
        ⟨5, 3, [("name", "c d")]⟩, ⟨0, 5, [("name", "a b c")]⟩,
        ⟨3, 5, [("name", "b c d")]⟩], false) := by decide
example :
    wExtract (fun s => [[("name", String.mk s)]]) 1 1 "a b c".data =
      ([⟨0, 1, [("name", "a")]⟩, ⟨2, 1, [("name", "b")]⟩,
        ⟨4, 1, [("name", "c")]⟩], false) := by decide
example :
    wExtract (fun s => [[("name", String.mk s)]]) 3 3 "a b c".data =
      ([⟨0, 5, [("name", "a b c")]⟩], false) := by decide
/- `start_len = 0` behaviour of `_windowed`: the zero-length pass yields
one empty window and then singleton windows, so with a matcher that
rejects the empty string the singleton candidates are yielded (here
duplicating the length-1 pass), while a matcher that accepts the empty
string raises `IndexError` at `window[0][0]` before yielding anything. -/
example :
    wExtract (fun s => if s = [] then [] else [[("name", String.mk s)]])
      0 1 "a".data =
      ([⟨0, 1, [("name", "a")]⟩, ⟨0, 1, [("name", "a")]⟩], false) := by decide
example :
    wExtract (fun s => [[("name", String.mk s)]]) 0 0 "a".data =
      ([], true) := by decide

/-! ### Span invariants (C8) -/

/-- Tokens are separated by at least one character. -/
def gapLt (a b : Nat × List Char) : Prop :=
  a.1 + a.2.length < b.1

theorem length_takeWhile_le' {α : Type} (p : α → Bool) (l : List α) :
    (l.takeWhile p).length ≤ l.length :=
  (List.takeWhile_sublist p).length_le

theorem length_dropWhile_le' {α : Type} (p : α → Bool) (l : List α) :
    (l.dropWhile p).length ≤ l.length :=
  (List.dropWhile_sublist p).length_le

theorem splitGo_empty (fuel pos : Nat) : splitGo fuel pos [] = [] := by
  cases fuel <;> rfl

theorem splitGo_bounds :
    ∀ (fuel : Nat) (s : List Char) (pos : Nat), s.length ≤ fuel →
      ∀ t ∈ splitGo fuel pos s,
        t.2 ≠ [] ∧ pos ≤ t.1 ∧ t.1 + t.2.length ≤ pos + s.length := by
  intro fuel
  induction fuel with
  | zero => intro s pos _ t ht; simp [splitGo] at ht
  | succ fuel ih =>
    intro s pos hf t ht
    cases s with
    | nil => simp [splitGo] at ht
    | cons c rest =>
      rw [splitGo] at ht
      by_cases hc : pyIsSpace c
      · rw [if_pos hc] at ht
        have := ih rest (pos + 1) (by simp at hf; omega) t ht
        refine ⟨this.1, by omega, by simp; omega⟩
      · rw [if_neg hc] at ht
        rcases List.mem_cons.mp ht with rfl | ht'
        · refine ⟨by simp, Nat.le_refl pos, ?_⟩
          have hlen := length_takeWhile_le'
            (fun d => !pyIsSpace d) rest
          simp
          omega
        · have hsum : (rest.takeWhile (fun d => !pyIsSpace d)).length +
              (rest.dropWhile (fun d => !pyIsSpace d)).length = rest.length := by
            have h := congrArg List.length
              (List.takeWhile_append_dropWhile (fun d => !pyIsSpace d) rest)
            rw [List.length_append] at h
            exact h
          have := ih (rest.dropWhile (fun d => !pyIsSpace d))
            (pos + 1 + (rest.takeWhile (fun d => !pyIsSpace d)).length)
            (by simp at hf; omega) t ht'
          refine ⟨this.1, by omega, by simp; omega⟩

theorem splitGo_start_ws (fuel : Nat) (s : List Char) (pos : Nat)
    (hf : s.length ≤ fuel)
    (hh : ∀ d, s.head? = some d → pyIsSpace d = true) :
    ∀ t ∈ splitGo fuel pos s, pos + 1 ≤ t.1 := by
  intro t ht
  cases s with
  | nil => rw [splitGo_empty] at ht; simp at ht
  | cons c rest =>
    cases fuel with
    | zero => simp at hf
    | succ fuel =>
      rw [splitGo, if_pos (hh c rfl)] at ht
      exact (splitGo_bounds fuel rest (pos + 1) (by simp at hf; omega) t ht).2.1

theorem splitGo_chain :
    ∀ (fuel : Nat) (s : List Char) (pos : Nat), s.length ≤ fuel →
      (splitGo fuel pos s).Chain' gapLt := by
  intro fuel
  induction fuel with
  | zero => intro s pos _; simp [splitGo]
  | succ fuel ih =>
    intro s pos hf
    cases s with
    | nil => simp [splitGo]
    | cons c rest =>
      rw [splitGo]
      by_cases hc : pyIsSpace c
      · rw [if_pos hc]
        exact ih rest (pos + 1) (by simp at hf; omega)
      · rw [if_neg hc, List.chain'_cons']
        constructor
        · intro y hy
          have hmem := mem_of_headOpt hy
          have hws : ∀ d, (rest.dropWhile (fun d => !pyIsSpace d)).head? =
              some d → pyIsSpace d = true := by
            intro d hd
            have := head?_dropWhile (fun d => !pyIsSpace d) rest d hd
            simpa using this
          have := splitGo_start_ws fuel
            (rest.dropWhile (fun d => !pyIsSpace d))
            (pos + 1 + (rest.takeWhile (fun d => !pyIsSpace d)).length)
            (by
              have := length_dropWhile_le' (fun d => !pyIsSpace d) rest
              simp at hf
              omega)
            hws y hmem
          simp only [gapLt, List.length_cons]
          omega
        · exact ih (rest.dropWhile (fun d => !pyIsSpace d))
            (pos + 1 + (rest.takeWhile (fun d => !pyIsSpace d)).length)
            (by
              have := length_dropWhile_le' (fun d => !pyIsSpace d) rest
              simp at hf
              omega)

theorem joinWindow_cons_cons (w v : Nat × List Char)
    (vs : List (Nat × List Char)) :
    joinWindow (w :: v :: vs) = w.2 ++ ' ' :: joinWindow (v :: vs) := rfl

theorem joinWindow_length_pos (w : Nat × List Char)
    (ws : List (Nat × List Char)) (hw : w.2 ≠ []) :
    0 < (joinWindow (w :: ws)).length := by
  cases ws with
  | nil =>
    show 0 < w.2.length
    cases h : w.2 with
    | nil => exact absurd h hw
    | cons a l => simp
  | cons v vs =>
    rw [joinWindow_cons_cons]
    simp

theorem joinWindow_bound (M : Nat) :
    ∀ (ws : List (Nat × List Char)) (w : Nat × List Char),
      (w :: ws).Chain' gapLt →
      (∀ t ∈ w :: ws, t.1 + t.2.length ≤ M) →
      w.1 + (joinWindow (w :: ws)).length ≤ M := by
  intro ws
  induction ws with
  | nil =>
    intro w _ hb
    exact hb w (List.mem_cons_self w [])
  | cons v vs ih =>
    intro w hchain hb
    rcases List.chain'_cons.mp hchain with ⟨hwv, htail⟩
    have hv := ih v htail (fun t ht => hb t (List.mem_cons_of_mem w ht))
    rw [joinWindow_cons_cons]
    simp only [List.length_append, List.length_cons]
    simp only [gapLt] at hwv
    omega

theorem wExtractGo_mem (wext : List Char → List (List (String × String))) :
    ∀ (windows : List (List (Nat × List Char)))
      (c : Cand (List (String × String))),
      c ∈ (wExtractGo wext windows).1 →
      ∃ w ws, (w :: ws) ∈ windows ∧ c.start = w.1 ∧
        c.len = (joinWindow (w :: ws)).length := by
  intro windows
  induction windows with
  | nil => intro c hc; simp [wExtractGo] at hc
  | cons window rest ih =>
    intro c hc
    match window with
    | [] =>
      rw [wExtractGo] at hc
      by_cases he : wext (joinWindow []) = []
      · rw [if_pos he] at hc
        obtain ⟨w, ws, hmem, h1, h2⟩ := ih c hc
        exact ⟨w, ws, List.mem_cons_of_mem _ hmem, h1, h2⟩
      · rw [if_neg he] at hc
        simp at hc
    | w :: ws =>
      rw [wExtractGo] at hc
      simp only [List.mem_append] at hc
      rcases hc with hc | hc
      · obtain ⟨m, _, rfl⟩ := List.mem_map.mp hc
        exact ⟨w, ws, List.mem_cons_self _ _, rfl, rfl⟩
      · obtain ⟨w', ws', hmem, h1, h2⟩ := ih c hc
        exact ⟨w', ws', List.mem_cons_of_mem _ hmem, h1, h2⟩

theorem nameExtract_inv (names : List (List Char)) (text : List Char)
    (c : Cand (List (String × String)))
    (hne : ∀ m ∈ names, pyStrip m ≠ [])
    (hc : c ∈ nameExtract names text) :
    0 < c.len ∧ c.start + c.len ≤ text.length := by
  obtain ⟨⟨i, n⟩, hmem, rfl⟩ := List.mem_map.mp hc
  simp only [nameExtractMatches, List.mem_flatMap, List.mem_filterMap,
    List.mem_range] at hmem
  obtain ⟨i', hi', n', hn', hif⟩ := hmem
  by_cases hocc : (pad n').isPrefixOf ((pad text).drop i')
  · rw [if_pos hocc] at hif
    simp only [Option.some.injEq, Prod.mk.injEq] at hif
    obtain ⟨rfl, rfl⟩ := hif
    constructor
    · show 0 < n'.length
      have hn'' : n' ∈ names.map pyStrip := List.mem_dedup.mp hn'
      obtain ⟨m, hm, rfl⟩ := List.mem_map.mp hn''
      exact List.length_pos.mpr (hne m hm)
    · show i' + n'.length ≤ text.length
      have hlen := (List.isPrefixOf_iff_prefix.mp hocc).length_le
      rw [pad_length, List.length_drop, pad_length] at hlen
      omega
  · rw [if_neg hocc] at hif
    simp at hif

theorem wExtract_inv (wext : List Char → List (List (String × String)))
    (start_len stop_len : Nat) (text : List Char)
    (c : Cand (List (String × String)))
    (hc : c ∈ (wExtract wext start_len stop_len text).1) :
    0 < c.len ∧ c.start + c.len ≤ text.length := by
  obtain ⟨w, ws, hwin, hstart, hlen⟩ := wExtractGo_mem wext _ c hc
  obtain ⟨L, _, hL⟩ := List.mem_flatMap.mp hwin
  have hwords := splitGo_bounds (text.length + 1) text 0 (by omega)
  have hchain := splitGo_chain (text.length + 1) text 0 (by omega)
  have hkey : (∀ t ∈ w :: ws, t ∈ pySplit text) ∧ (w :: ws).Chain' gapLt := by
    by_cases hL0 : L = 0
    · subst hL0
      rw [windowedPy, if_pos rfl] at hL
      rcases List.mem_cons.mp hL with he | he
      · simp at he
      · obtain ⟨t, ht, he⟩ := List.mem_map.mp he
        obtain ⟨rfl, rfl⟩ : t = w ∧ ([] : List (Nat × List Char)) = ws := by
          rw [List.cons.injEq] at he
          exact ⟨he.1, he.2⟩
        constructor
        · intro u hu
          rcases List.mem_cons.mp hu with rfl | hu
          · exact ht
          · simp at hu
        · simp
    · rw [windowedPy, if_neg hL0] at hL
      obtain ⟨j, _, hj⟩ := List.mem_map.mp hL
      constructor
      · intro t ht
        rw [← hj] at ht
        exact (((List.take_sublist _ _).trans (List.drop_sublist _ _)).subset) ht
      · rw [← hj]
        exact List.Chain'.prefix
          (List.Chain'.suffix hchain (List.drop_suffix _ _))
          ( List.take_prefix _ _)
  obtain ⟨hsub, hwchain⟩ := hkey
  constructor
  · rw [hlen]
    exact joinWindow_length_pos w ws
      (hwords w (hsub w (List.mem_cons_self w ws))).1
  · rw [hstart, hlen]
    apply joinWindow_bound text.length ws w hwchain
    intro t ht
    have := (hwords t (hsub t ht)).2.2
    omega

/-- C8 counterexample: a registered name that strips to the empty string
(e.g. a location whose name normalizes to `""`) makes
`NameExtractor.extract` yield a candidate of length 0 — on the empty
text the automaton pattern `"  "` matches the padding itself and the
code yields `(0, 0, {'name': ''})`, violating "length is positive". -/
theorem c8_counterexample :
    nameExtract [([] : List Char)] [] =
      [⟨0, 0, [("name", "")]⟩] ∧
    ¬ (0 < (Cand.mk 0 0 [("name", "")] :
        Cand (List (String × String))).len) := by
  constructor
  · decide
  · decide

/-- C8 (amended): every candidate yielded by `NameExtractor.extract`
satisfies `0 < length` and `start + length ≤ len(text)` provided every
registered name is nonempty after stripping (without that proviso the
counterexample applies); every candidate yielded by
`WindowExtractor.extract` — any `start_len`/`stop_len`, any subclass
matcher, candidates yielded before a potential `IndexError` on
zero-word windows — satisfies both unconditionally.  Starts are
non-negative by construction (they live in `Nat`). -/
theorem c8_amended :
    (∀ (names : List (List Char)) (text : List Char)
      (c : Cand (List (String × String))),
      (∀ m ∈ names, pyStrip m ≠ []) → c ∈ nameExtract names text →
        0 < c.len ∧ c.start + c.len ≤ text.length) ∧
    (∀ (wext : List Char → List (List (String × String)))
      (start_len stop_len : Nat) (text : List Char)
      (c : Cand (List (String × String))),
      c ∈ (wExtract wext start_len stop_len text).1 →
        0 < c.len ∧ c.start + c.len ≤ text.length) :=
  ⟨fun names text c hne hc => nameExtract_inv names text c hne hc,
   fun wext sl tl text c hc => wExtract_inv wext sl tl text c hc⟩

/-- Witness for the amended C8 theorem: the name-extractor part at
`names = ["ab"]`, `text = "x ab"`, candidate `(2, 2, {name: ab})`; the
window-extractor part at the dummy matcher, window sizes 2–3, text
`"a b"`, candidate `(0, 3, {name: "a b"})`. -/
theorem c8_amended_witness :
    (0 < (Cand.mk 2 2 [("name", "ab")] :
        Cand (List (String × String))).len ∧
      (Cand.mk 2 2 [("name", "ab")] :
        Cand (List (String × String))).start +
        (Cand.mk 2 2 [("name", "ab")] :
          Cand (List (String × String))).len ≤ "x ab".data.length) ∧
    (0 < (Cand.mk 0 3 [("name", "a b")] :
        Cand (List (String × String))).len ∧
      (Cand.mk 0 3 [("name", "a b")] :
        Cand (List (String × String))).start +
        (Cand.mk 0 3 [("name", "a b")] :
          Cand (List (String × String))).len ≤ "a b".data.length) :=
  ⟨c8_amended.1 ["ab".data] "x ab".data (Cand.mk 2 2 [("name", "ab")])
      (by decide) (by decide),
   c8_amended.2 (fun s => [[("name", String.mk s)]]) 2 3 "a b".data
      (Cand.mk 0 3 [("name", "a b")]) (by decide)⟩

/-! ## `WhitespaceSplitter`

The splitter turns the raw text into a rectangular grid of character
codes (`_string_to_array`), dilates the non-space mask with a quadrant
structuring element (growth extends down/right: scipy's
`binary_dilation` implements textbook dilation, so the element set
`structure[m1-1:, m0-1:] = 1` anchored at the centre contributes the
offsets `[0, m1-1] x [0, m0-1]`), labels the 8-connected components
(numbered in raster order of first occurrence, as scipy does), and for
each label emits the masked bounding-box text.  All grid operations are
bounded, so everything evaluates by `decide`. -/

/-- `str.splitlines` (ASCII line breaks: `\r\n`, `\n`, `\r`, `\x0b`,
`\x0c`; the exotic Unicode breaks are outside the model). -/
def splitlinesGo : List Char → List Char → List (List Char)
  | acc, [] => if acc.isEmpty then [] else [acc.reverse]
  | acc, '\r' :: '\n' :: rest => acc.reverse :: splitlinesGo [] rest
  | acc, c :: rest =>
    if c = '\n' ∨ c = '\r' ∨ c = '\x0b' ∨ c = '\x0c' then
      acc.reverse :: splitlinesGo [] rest
    else splitlinesGo (c :: acc) rest

def pySplitlines (s : List Char) : List (List Char) :=
  splitlinesGo [] s

/-- `_string_to_array`: rows of character codes, zero-padded to the
longest line. -/
def stringToArray (s : List Char) : List (List Nat) :=
  let lines := pySplitlines s
  let n := (lines.map List.length).foldr max 0
  lines.map fun line =>
    (line.map Char.toNat) ++ List.replicate (n - line.length) 0

/-- Number of columns of a rectangular grid. -/
def numCols {α : Type} (g : List (List α)) : Nat :=
  (g.headD []).length

def gridGetN (g : List (List Nat)) (i j : Nat) : Nat :=
  (g.getD i []).getD j 0

def gridGetB (g : List (List Bool)) (i j : Nat) : Bool :=
  (g.getD i []).getD j false

/-- Dilation of the foreground mask by the quadrant structuring element
for `margin = (m0, m1)`: growth extends `m1 - 1` rows down and `m0 - 1`
columns right. -/
def dilate (m0 m1 : Nat) (g : List (List Bool)) : List (List Bool) :=
  (List.range g.length).map fun i =>
    (List.range (numCols g)).map fun j =>
      (List.range m1).any fun u =>
        (List.range m0).any fun v =>
          u ≤ i && v ≤ j && gridGetB g (i - u) (j - v)

/-- Initial labels for the 8-connectivity labeling: each foreground cell
starts with its raster index plus one. -/
def initLabels (g : List (List Bool)) : List (List Nat) :=
  (List.range g.length).map fun i =>
    (List.range (numCols g)).map fun j =>
      if gridGetB g i j then i * numCols g + j + 1 else 0

/-- The labels of the 8 neighbours of `(i, j)` (0 when out of range or
background). -/
def neighborLabels (g : List (List Nat)) (i j : Nat) : List Nat :=
  (List.range 3).flatMap fun a =>
    (List.range 3).flatMap fun b =>
      if a = 1 ∧ b = 1 then []
      else if 1 ≤ i + a ∧ 1 ≤ j + b then [gridGetN g (i + a - 1) (j + b - 1)]
      else []

/-- One step of minimum-label propagation over 8-connected foreground
cells. -/
def stepLabels (g : List (List Nat)) : List (List Nat) :=
  (List.range g.length).map fun i =>
    (List.range (numCols g)).map fun j =>
      let v := gridGetN g i j
      if v = 0 then 0
      else (neighborLabels g i j).foldl
        (fun acc w => if w ≠ 0 ∧ w < acc then w else acc) v

def iterateLabels : Nat → List (List Nat) → List (List Nat)
  | 0, g => g
  | k + 1, g => iterateLabels k (stepLabels g)

/-- Deduplication keeping the first occurrence of each element (note
that `List.dedup` keeps the last one). -/
def firstDedup {α : Type} [DecidableEq α] (l : List α) : List α :=
  l.foldl (fun acc v => if v ∈ acc then acc else acc ++ [v]) []

/-- The distinct non-zero labels in raster order of first occurrence. -/
def labelOrder (g : List (List Nat)) : List Nat :=
  firstDedup ((g.flatMap id).filter (fun v => v ≠ 0))

/-- Relabel with consecutive numbers `1..K` in raster order of first
occurrence (scipy's numbering). -/
def renumber (g : List (List Nat)) : List (List Nat) :=
  let order := labelOrder g
  g.map fun row => row.map fun v =>
    if v = 0 then 0 else order.indexOf v + 1

/-- The connected-component labeling of the mask: stabilised minimum
propagation (the grid size bounds the number of required iterations),
renumbered in raster order. -/
def labelGrid (g : List (List Bool)) : List (List Nat) :=
  renumber (iterateLabels (g.length * numCols g) (initLabels g))

/-- `find_objects`: the bounding box `(minRow, maxRow, minCol, maxCol)`
of a label. -/
def bboxOf (g : List (List Nat)) (lab : Nat) : Nat × Nat × Nat × Nat :=
  let cells := (List.range g.length).flatMap fun i =>
    (List.range (numCols g)).filterMap fun j =>
      if gridGetN g i j = lab then some (i, j) else none
  match cells with
  | [] => (0, 0, 0, 0)
  | c :: cs =>
    (cs.foldl (fun acc d => min acc d.1) c.1,
     cs.foldl (fun acc d => max acc d.1) c.1,
     cs.foldl (fun acc d => min acc d.2) c.2,
     cs.foldl (fun acc d => max acc d.2) c.2)

/-- `'\n'.join(rows)`. -/
def joinLines : List (List Char) → List Char
  | [] => []
  | [r] => r
  | r :: rs => r ++ '\n' :: joinLines rs

/-- `WhitespaceSplitter.split` with the given `margin`.  Returns plain
strings: the source appends only `part` (no offsets) to the result. -/
def wsSplit (margin : Nat × Nat) (s : List Char) : List (List Char) :=
  let a := stringToArray s
  if a.length = 0 ∨ numCols a = 0 then []
  else
    let fg : List (List Bool) :=
      a.map (List.map fun v => decide (v ≠ 0 ∧ v ≠ 32))
    let dil := if margin = (1, 1) then fg else dilate margin.1 margin.2 fg
    let labels := labelGrid dil
    (List.range (labelOrder labels).length).filterMap fun k =>
      let lab := k + 1
      let box := bboxOf labels lab
      let part := joinLines <|
        (List.range (box.2.1 + 1 - box.1)).map fun di =>
          (List.range (box.2.2.2 + 1 - box.2.2.1)).map fun dj =>
            let i := box.1 + di
            let j := box.2.2.1 + dj
            if gridGetN labels i j = lab then
              let v := gridGetN a i j
              if v = 0 then ' ' else Char.ofNat v
            else ' '
      if pyStrip part ≠ [] then some part else none

/-- The default `WhitespaceSplitter()` margin. -/
def defaultMargin : Nat × Nat := (2, 1)

/-- C6 counterexample: `WhitespaceSplitter.split` returns bare strings;
no origin offset is attached to a block.  The texts `"a\n\nb"` and
`"\na\n\nb"` place their two components at different (line, column)
origins — `(0,0)/(2,0)` versus `(1,0)/(3,0)` — yet `split` returns
exactly the same value for both, so the output cannot carry the
components' top-left offsets. -/
theorem c6_counterexample :
    wsSplit defaultMargin "a\n\nb".data = ["a".data, "b".data] ∧
    wsSplit defaultMargin "\na\n\nb".data = ["a".data, "b".data] := by
  constructor
  · decide
  · decide

/-- C6 (amended): `split` emits, for every connected label, the masked
rectangular text of its bounding box as a plain string (no origin
offset): in the 5×5 ring-with-centre example the ring's bounding box is
the whole grid with the enclosed `c` masked to a space, and `c` is its
own one-character block; empty and whitespace-only texts yield no
blocks. -/
theorem c6_amended :
    wsSplit (1, 1) "aaaaa\na   a\na c a\na   a\naaaaa".data =
      ["aaaaa\na   a\na   a\na   a\naaaaa".data, "c".data] ∧
    wsSplit defaultMargin "a\n\nb".data = ["a".data, "b".data] ∧
    wsSplit defaultMargin "".data = [] ∧
    wsSplit defaultMargin " \n ".data = [] := by
  refine ⟨by decide, by decide, by decide, by decide⟩

/-! ## `Pipeline`

Python dict values are heterogeneous (strings, and the `aliases` list);
they are modelled by `PyVal`.  Location dicts and candidate attribute
maps are insertion-ordered association lists.  The non-extractor
components are fixed at their defaults (`NameValidator`,
`BasicNormalizer()` with pluggable transliteration, `WhitespaceSplitter()`,
no postprocessors), which is the configuration the claim about the
`extractors` argument concerns. -/

inductive PyVal : Type
  | str (s : String)
  | list (l : List String)
deriving DecidableEq, Repr

/-- A Python dict with string keys. -/
abbrev PyDict (α : Type) := List (String × α)

abbrev Loc := PyDict PyVal

/-- Dict assignment: updating an existing key keeps its position, a new
key is appended. -/
def dictSet {κ α : Type} [DecidableEq κ] :
    List (κ × α) → κ → α → List (κ × α)
  | [], k, v => [(k, v)]
  | (k', v') :: rest, k, v =>
    if k' = k then (k, v) :: rest else (k', v') :: dictSet rest k v

/-- `d.update(other)`: assign every item of `other` in order. -/
def dictUpdate (d other : Loc) : Loc :=
  other.foldl (fun acc kv => dictSet acc kv.1 kv.2) d

/-- `loc['name']` as a string (every location is required to have a
`name` key; the default is never reached for well-formed input). -/
def locName (loc : Loc) : String :=
  match loc.lookup "name" with
  | some (PyVal.str s) => s
  | _ => ""

/-- `location.get('aliases', [])`. -/
def locAliases (loc : Loc) : List String :=
  match loc.lookup "aliases" with
  | some (PyVal.list l) => l
  | _ => []

/-- An extractor, observed through `setup` + `extract`: it receives the
pipeline's normalized-name keys (what `NameExtractor.setup` reads) and
the block text, and yields candidates. -/
abbrev Extr := List (List Char) → List Char → List (Cand Loc)

/-- The default `NameExtractor()` as a pipeline extractor. -/
def nameExtractorE : Extr := fun names text =>
  (nameExtractMatches names text).map fun m =>
    ⟨m.1, m.2.length, [("name", PyVal.str (String.mk m.2))]⟩

/-- `{loc['name']: loc for loc in locations}`. -/
def buildLocations (locations : List Loc) : PyDict Loc :=
  locations.foldl (fun d loc => dictSet d (locName loc) loc) []

/-- `Pipeline._normalize_locations`: map every normalized name and alias
to its location (later writes win, insertion order kept). -/
def buildNormalizedNames (unidec : List Char → List Char)
    (locations : PyDict Loc) : List (List Char × Loc) :=
  locations.foldl
    (fun m kv =>
      let m := dictSet m ((defaultBasicNormalizer unidec).normalize kv.1.data)
        kv.2
      (locAliases kv.2).foldl
        (fun m al =>
          dictSet m ((defaultBasicNormalizer unidec).normalize al.data) kv.2)
        m)
    []

structure Pipeline where
  unidec : List Char → List Char
  locations : PyDict Loc
  extractors : List Extr
  normalized_names : List (List Char × Loc)

/-- `Pipeline.__init__` restricted to the `locations` and `extractors`
arguments (the other components fixed at their defaults):
`self.extractors = extractors or [NameExtractor()]` — both `None` (here
`none`) and the empty list are falsy and select the default. -/
def mkPipeline (unidec : List Char → List Char) (locations : List Loc)
    (extractors : Option (List Extr)) : Pipeline :=
  let locs := buildLocations locations
  { unidec := unidec
    locations := locs
    extractors :=
      match extractors with
      | none => [nameExtractorE]
      | some [] => [nameExtractorE]
      | some es => es
    normalized_names := buildNormalizedNames unidec locs }

/-- `Pipeline._augment_result`: denormalize the `name`, `street`, `city`
values through the normalized-name index, then overlay the full location
record when `name` is a known canonical name. -/
def augmentResult (p : Pipeline) (attrs : Loc) : Loc :=
  let denorm := (["name", "street", "city"] : List String).foldl
    (fun attrs key =>
      match attrs.lookup key with
      | some (PyVal.str v) =>
        match p.normalized_names.lookup v.data with
        | some loc => dictSet attrs key (PyVal.str (locName loc))
        | none => attrs
      | _ => attrs)
    attrs
  match denorm.lookup "name" with
  | some (PyVal.str v) =>
    match p.locations.lookup v with
    | some loc => dictUpdate denorm loc
    | none => denorm
  | _ => denorm

/-- One field check of `NameValidator.validate` over `PyVal` dicts (a
non-string field value cannot name a registry entry). -/
def validateKeyP (locations : PyDict Loc) (location : Loc)
    (key : String) : Bool :=
  match location.lookup key with
  | none => true
  | some (PyVal.str value) =>
    match locations.lookup value with
    | none => false
    | some loc => loc.lookup "type" == some (PyVal.str key)
  | some (PyVal.list _) => false

/-- `NameValidator.validate` over `PyVal` dicts. -/
def nameValidateP (locations : PyDict Loc) (location : Loc) : Bool :=
  if (location.lookup "name").isSome then true
  else validateKeyP locations location "street" &&
    validateKeyP locations location "city"

/-- `Pipeline.extract` (defaults: `WhitespaceSplitter()`,
`BasicNormalizer()`, `NameValidator()`, no postprocessors): split, then
per block normalize, run every extractor, augment, validate, prune; then
deduplicate across blocks. -/
def Pipeline.extract (p : Pipeline) (text : List Char) : List Loc :=
  let parts := (wsSplit defaultMargin text).map
    (defaultBasicNormalizer p.unidec).normalize
  let results := parts.flatMap fun part =>
    let candidates := p.extractors.flatMap fun e =>
      e (p.normalized_names.map Prod.fst) part
    let augmented := candidates.map fun c =>
      { c with attrs := augmentResult p c.attrs }
    pruneOverlapping (augmented.filter fun c =>
      nameValidateP p.locations c.attrs)
  uniqueLocations (results.map Cand.attrs)

/- Pipeline sanity checks against `TestPipeline` of the test suite. -/
example : (mkPipeline id [] none).extract "foobar".data = [] := by decide
example :
    (mkPipeline id [[("name", PyVal.str "foo")]] none).extract
      "x foo y".data = [[("name", PyVal.str "foo")]] := by decide
example :
    (mkPipeline id []
      (some [fun _ _ =>
        [⟨0, 1, [("name", PyVal.str "a")]⟩, ⟨1, 2, [("name", PyVal.str "b")]⟩,
         ⟨2, 1, [("name", PyVal.str "c")]⟩, ⟨2, 3, [("name", PyVal.str "d")]⟩,
         ⟨1, 4, [("name", PyVal.str "e")]⟩, ⟨5, 2, [("name", PyVal.str "f")]⟩,
         ⟨4, 2, [("name", PyVal.str "g")]⟩]])).extract
      "does not matter".data =
    [[("name", PyVal.str "a")], [("name", PyVal.str "e")],
     [("name", PyVal.str "g")], [("name", PyVal.str "f")]] := by decide

/-- C10: constructing a `Pipeline` with `extractors=[]` is
indistinguishable from omitting the argument: `extractors or
[NameExtractor()]` treats both as falsy, so both pipelines hold exactly
one default `NameExtractor` and are equal as records, and `extract`
behaves identically on every text. -/
theorem c10_empty_extractors (unidec : List Char → List Char)
    (locations : List Loc) :
    mkPipeline unidec locations (some []) =
      mkPipeline unidec locations none ∧
    (mkPipeline unidec locations (some [])).extractors =
      [nameExtractorE] ∧
    ∀ text, (mkPipeline unidec locations (some [])).extract text =
      (mkPipeline unidec locations none).extract text :=
  ⟨rfl, rfl, fun _ => rfl⟩

end GeoExtract
